import Mathlib

/-!
# SHA-1 streaming engine of `sha1test.c`

A shallow embedding of the hashing engine (`sha1_transform`, `sha1_init`,
`sha1_update`, `sha1_final`) and of the self-test `sha1_test`.

Conventions of the embedding:

* `BYTE` and `WORD` values are natural numbers; every place where the C code
  truncates (assignment to a `WORD`, to a `BYTE`, to the 64-bit counter) is an
  explicit `%`.
* C arrays are lists.  Every array read and write is bounds-checked against the
  length of the list, and an access outside the array makes the whole operation
  return `none` (the C behaviour is undefined there).  The size of an array is
  therefore a fact about the list (`ctx.data.length = 64` for `BYTE data[64]`).
* `WORD state[5]` and `WORD k[4]` are only ever indexed by constants, so they are
  records with one field per cell.
* A `for`/`while` loop whose counter runs from `lo` up to `hi` is `forLoop lo hi`.
-/

namespace Sha1

/-- The array `WORD state[5]` of the context (indexed only by constants). -/
structure Words5 where
  s0 : Nat
  s1 : Nat
  s2 : Nat
  s3 : Nat
  s4 : Nat
deriving DecidableEq

/-- The array `WORD k[4]` of the context (indexed only by constants). -/
structure Words4 where
  k0 : Nat
  k1 : Nat
  k2 : Nat
  k3 : Nat
deriving DecidableEq

/-- The record `SHA1_CTX`: `BYTE data[64]`, `WORD datalen`,
`unsigned long long bitlen`, `WORD state[5]`, `WORD k[4]`. -/
structure SHA1_CTX where
  data : List Nat
  datalen : Nat
  bitlen : Nat
  state : Words5
  k : Words4
deriving DecidableEq

/-- The local variables `a, b, c, d, e` of `sha1_transform`. -/
structure Vars where
  a : Nat
  b : Nat
  c : Nat
  d : Nat
  e : Nat
deriving DecidableEq

/-- Array read `buf[i]`; `none` when `i` is outside the array. -/
def loadAt (buf : List Nat) (i : Nat) : Option Nat := buf[i]?

/-- Array write `buf[i] = v`; `none` when `i` is outside the array. -/
def storeAt (buf : List Nat) (i v : Nat) : Option (List Nat) :=
  if i < buf.length then some (buf.set i v) else none

/-- The loop `for (i = lo; i < hi; ++i) body`, threading the variables the body
assigns; it fails as soon as one iteration fails. -/
def forLoop {σ : Type} (lo hi : Nat) (body : Nat → σ → Option σ) (s : σ) : Option σ :=
  (List.range' lo (hi - lo)).foldlM (fun s i => body i s) s

/-- The macro `ROTLEFT(a, b) ((a << b) | (a >> (32 - b)))` on 32-bit words. -/
def ROTLEFT (a b : Nat) : Nat := ((a <<< b) % 2 ^ 32) ||| (a >>> (32 - b))

/-- The complement `~b` of a 32-bit word. -/
def NOT32 (b : Nat) : Nat := 2 ^ 32 - 1 - b

/-- First loop of `sha1_transform` (lines 47-48): the sixteen message words.
The byte operands are promoted to `int`; the sum is below `2^32`, and the
assignment to the `WORD` keeps its residue. -/
def sha1_transform_pack (data : List Nat) (m : List Nat) : Option (Nat × List Nat) :=
  forLoop 0 16 (fun i (jm : Nat × List Nat) => do
    let d0 ← loadAt data jm.1
    let d1 ← loadAt data (jm.1 + 1)
    let d2 ← loadAt data (jm.1 + 2)
    let d3 ← loadAt data (jm.1 + 3)
    let m ← storeAt jm.2 i (((d0 <<< 24) + (d1 <<< 16) + (d2 <<< 8) + d3) % 2 ^ 32)
    some (jm.1 + 4, m)) (0, m)

/-- Second loop of `sha1_transform` (lines 49-52): the schedule words 16..79. -/
def sha1_transform_expand (m : List Nat) : Option (List Nat) :=
  forLoop 16 80 (fun i m => do
    let x3 ← loadAt m (i - 3)
    let x8 ← loadAt m (i - 8)
    let x14 ← loadAt m (i - 14)
    let x16 ← loadAt m (i - 16)
    let m ← storeAt m i (x3 ^^^ x8 ^^^ x14 ^^^ x16)
    let mi ← loadAt m i
    storeAt m i (((mi <<< 1) % 2 ^ 32) ||| (mi >>> 31))) m

/-- One round (the common body of the four round loops): `f` is the mixing
value and `kq` the round constant of the loop. -/
def sha1_round (f : Vars → Nat) (kq : Nat) (m : List Nat) (i : Nat) (v : Vars) : Option Vars := do
  let mi ← loadAt m i
  let t := (ROTLEFT v.a 5 + f v + v.e + kq + mi) % 2 ^ 32
  some { a := t, b := v.a, c := ROTLEFT v.b 30, d := v.c, e := v.d }

/-- Mixing value of rounds 0..19 (line 61). -/
def f_ch (v : Vars) : Nat := (v.b &&& v.c) ^^^ (NOT32 v.b &&& v.d)

/-- Mixing value of rounds 20..39 and 60..79 (lines 69 and 85). -/
def f_parity (v : Vars) : Nat := v.b ^^^ v.c ^^^ v.d

/-- Mixing value of rounds 40..59 (line 77). -/
def f_maj (v : Vars) : Nat := (v.b &&& v.c) ^^^ (v.b &&& v.d) ^^^ (v.c &&& v.d)

/-- The function `sha1_transform(ctx, data)`: the schedule `m[80]`, the eighty
rounds and the addition into `ctx->state`. -/
def sha1_transform (ctx : SHA1_CTX) (data : List Nat) : Option SHA1_CTX := do
  let jm ← sha1_transform_pack data (List.replicate 80 0)
  let m ← sha1_transform_expand jm.2
  let v : Vars :=
    { a := ctx.state.s0, b := ctx.state.s1, c := ctx.state.s2, d := ctx.state.s3,
      e := ctx.state.s4 }
  let v ← forLoop 0 20 (sha1_round f_ch ctx.k.k0 m) v
  let v ← forLoop 20 40 (sha1_round f_parity ctx.k.k1 m) v
  let v ← forLoop 40 60 (sha1_round f_maj ctx.k.k2 m) v
  let v ← forLoop 60 80 (sha1_round f_parity ctx.k.k3 m) v
  some { ctx with
    state :=
      { s0 := (ctx.state.s0 + v.a) % 2 ^ 32
        s1 := (ctx.state.s1 + v.b) % 2 ^ 32
        s2 := (ctx.state.s2 + v.c) % 2 ^ 32
        s3 := (ctx.state.s3 + v.d) % 2 ^ 32
        s4 := (ctx.state.s4 + v.e) % 2 ^ 32 } }

/-- The function `sha1_init(ctx)`: every field but `data` is assigned. -/
def sha1_init (ctx : SHA1_CTX) : SHA1_CTX :=
  { ctx with
    datalen := 0
    bitlen := 0
    state :=
      { s0 := 0x67452301, s1 := 0xEFCDAB89, s2 := 0x98BADCFE, s3 := 0x10325476,
        s4 := 0xc3d2e1f0 }
    k := { k0 := 0x5a827999, k1 := 0x6ed9eba1, k2 := 0x8f1bbcdc, k3 := 0xca62c1d6 } }

/-- Body of the loop of `sha1_update` (lines 120-126) for the input byte `b`. -/
def sha1_update_byte (ctx : SHA1_CTX) (b : Nat) : Option SHA1_CTX := do
  let buf ← storeAt ctx.data ctx.datalen b
  let ctx := { ctx with data := buf, datalen := (ctx.datalen + 1) % 2 ^ 32 }
  if ctx.datalen = 64 then do
    let ctx ← sha1_transform ctx ctx.data
    some { ctx with bitlen := (ctx.bitlen + 512) % 2 ^ 64, datalen := 0 }
  else
    some ctx

/-- The function `sha1_update(ctx, data, len)`. -/
def sha1_update (ctx : SHA1_CTX) (data : List Nat) (len : Nat) : Option SHA1_CTX :=
  forLoop 0 len (fun i ctx => do
    let b ← loadAt data i
    sha1_update_byte ctx b) ctx

/-- The call `memset(buf, 0, n)`. -/
def memset0 (buf : List Nat) (n : Nat) : Option (List Nat) :=
  if n ≤ buf.length then some (List.replicate n 0 ++ buf.drop n) else none

/-- The padding of `sha1_final` (lines 134-148): the `0x80` byte, the zero fill
and, when fewer than eight bytes are left, the extra transform. -/
def sha1_final_pad (ctx : SHA1_CTX) : Option SHA1_CTX := do
  let i := ctx.datalen
  if ctx.datalen < 56 then do
    let buf ← storeAt ctx.data i 0x80
    let i := (i + 1) % 2 ^ 32
    let buf ← forLoop i 56 (fun i buf => storeAt buf i 0x00) buf
    some { ctx with data := buf }
  else do
    let buf ← storeAt ctx.data i 0x80
    let i := (i + 1) % 2 ^ 32
    let buf ← forLoop i 64 (fun i buf => storeAt buf i 0x00) buf
    let ctx := { ctx with data := buf }
    let ctx ← sha1_transform ctx ctx.data
    let buf ← memset0 ctx.data 56
    some { ctx with data := buf }

/-- The length field of `sha1_final` (lines 151-159).  `(int)ctx->datalen * 8`
is evaluated after the padding succeeded, hence with `datalen < 64`, where the
conversion to `int` and the product are exact. -/
def sha1_final_length (ctx : SHA1_CTX) : Option SHA1_CTX := do
  let ctx := { ctx with bitlen := (ctx.bitlen + ctx.datalen * 8) % 2 ^ 64 }
  let buf ← storeAt ctx.data 63 (ctx.bitlen % 256)
  let buf ← storeAt buf 62 ((ctx.bitlen >>> 8) % 256)
  let buf ← storeAt buf 61 ((ctx.bitlen >>> 16) % 256)
  let buf ← storeAt buf 60 ((ctx.bitlen >>> 24) % 256)
  let buf ← storeAt buf 59 ((ctx.bitlen >>> 32) % 256)
  let buf ← storeAt buf 58 ((ctx.bitlen >>> 40) % 256)
  let buf ← storeAt buf 57 ((ctx.bitlen >>> 48) % 256)
  let buf ← storeAt buf 56 ((ctx.bitlen >>> 56) % 256)
  some { ctx with data := buf }

/-- The output loop of `sha1_final` (lines 164-170), writing into `hash`. -/
def sha1_final_output (st : Words5) (hash : List Nat) : Option (List Nat) :=
  forLoop 0 4 (fun i h => do
    let h ← storeAt h i ((st.s0 >>> (24 - i * 8)) &&& 0x000000ff)
    let h ← storeAt h (i + 4) ((st.s1 >>> (24 - i * 8)) &&& 0x000000ff)
    let h ← storeAt h (i + 8) ((st.s2 >>> (24 - i * 8)) &&& 0x000000ff)
    let h ← storeAt h (i + 12) ((st.s3 >>> (24 - i * 8)) &&& 0x000000ff)
    storeAt h (i + 16) ((st.s4 >>> (24 - i * 8)) &&& 0x000000ff)) hash

/-- The function `sha1_final(ctx, hash)`: it returns the context and the buffer
`hash` as the call leaves them. -/
def sha1_final (ctx : SHA1_CTX) (hash : List Nat) : Option (SHA1_CTX × List Nat) := do
  let ctx ← sha1_final_pad ctx
  let ctx ← sha1_final_length ctx
  let ctx ← sha1_transform ctx ctx.data
  let hash ← sha1_final_output ctx.state hash
  some (ctx, hash)

/-- The call sequence `sha1_init(&ctx); sha1_update(&ctx, data, len);
sha1_final(&ctx, hash)` used throughout `sha1_test`. -/
def sha1_digest (ctx : SHA1_CTX) (data : List Nat) (len : Nat) (hash : List Nat) :
    Option (SHA1_CTX × List Nat) := do
  let ctx ← sha1_update (sha1_init ctx) data len
  sha1_final ctx hash

/-- The state `sha1_transform` leaves in `ctx->state`, as a function of the
round constants and state it finds in the context and of the block. -/
def transformState (k : Words4) (st : Words5) (block : List Nat) : Option Words5 :=
  (sha1_transform { data := block, datalen := 0, bitlen := 0, state := st, k := k } block).map
    (fun c => c.state)

/-- The consecutive 64-byte blocks of a byte sequence (an incomplete last block
is left out). -/
def blocks (l : List Nat) : List (List Nat) :=
  (List.range (l.length / 64)).map (fun i => (l.drop (64 * i)).take 64)

/-- Big-endian bytes of a 32-bit word, most significant first. -/
def be32 (w : Nat) : List Nat := [w / 2 ^ 24 % 256, w / 2 ^ 16 % 256, w / 2 ^ 8 % 256, w % 256]

/-- Big-endian bytes of a 64-bit integer, most significant first. -/
def be64 (n : Nat) : List Nat :=
  [n / 2 ^ 56 % 256, n / 2 ^ 48 % 256, n / 2 ^ 40 % 256, n / 2 ^ 32 % 256,
   n / 2 ^ 24 % 256, n / 2 ^ 16 % 256, n / 2 ^ 8 % 256, n % 256]

/-- The 20-byte big-endian serialization of five state words, word 0 first. -/
def serialize (st : Words5) : List Nat :=
  be32 st.s0 ++ be32 st.s1 ++ be32 st.s2 ++ be32 st.s3 ++ be32 st.s4

/-- The five initialization words that `sha1_init` stores. -/
def initState : Words5 :=
  { s0 := 0x67452301, s1 := 0xEFCDAB89, s2 := 0x98BADCFE, s3 := 0x10325476, s4 := 0xC3D2E1F0 }

/-- The four round constants that `sha1_init` stores. -/
def initK : Words4 :=
  { k0 := 0x5A827999, k1 := 0x6ED9EBA1, k2 := 0x8F1BBCDC, k3 := 0xCA62C1D6 }

/-- The padded message `x ‖ 0x80 ‖ 0x00^k ‖ BE64(8·|x|)`. -/
def padded (x : List Nat) (k : Nat) : List Nat :=
  x ++ [0x80] ++ List.replicate k 0 ++ be64 (8 * x.length)

/-- The number of zero bytes of the padding of a message of `n` bytes. -/
def padZeros (n : Nat) : Nat := (119 - n % 64) % 64

/-- The state reached by folding the block transform, from the initialization
words, over the 64-byte blocks of the padded message. -/
def foldBlocks (x : List Nat) : Option Words5 :=
  (blocks (padded x (padZeros x.length))).foldlM (transformState initK) initState

/-- The value a list of bytes denotes when read big-endian. -/
def beValue (bytes : List Nat) : Nat := bytes.foldl (fun acc b => acc * 256 + b) 0

/-- Word `j` of `WORD state[5]`. -/
def Words5.word (st : Words5) (j : Nat) : Nat :=
  match j with
  | 0 => st.s0
  | 1 => st.s1
  | 2 => st.s2
  | 3 => st.s3
  | _ => st.s4

/-- The calls `sha1_update(&ctx, c, |c|)` for the chunks `c` of a list, in order. -/
def sha1_update_chunks (ctx : SHA1_CTX) (chunks : List (List Nat)) : Option SHA1_CTX :=
  chunks.foldlM (fun c chunk => sha1_update c chunk chunk.length) ctx

/-- The array `text1` of `sha1_test`: the string "abc" and its terminating NUL. -/
def text1 : List Nat := [97, 98, 99, 0]

/-- The array `text2` of `sha1_test`:
"abcdbcdecdefdefgefghfghighijhijkijkljklmklmnlmnomnopnopq" and its NUL. -/
def text2 : List Nat :=
  [97, 98, 99, 100, 98, 99, 100, 101, 99, 100, 101, 102, 100, 101, 102, 103,
   101, 102, 103, 104, 102, 103, 104, 105, 103, 104, 105, 106, 104, 105, 106, 107,
   105, 106, 107, 108, 106, 107, 108, 109, 107, 108, 109, 110, 108, 109, 110, 111,
   109, 110, 111, 112, 110, 111, 112, 113, 0]

/-- The array `text3` of `sha1_test`: the string "aaaaaaaaaa" and its NUL. -/
def text3 : List Nat := [97, 97, 97, 97, 97, 97, 97, 97, 97, 97, 0]

/-- The array `hash1` of `sha1_test`. -/
def hash1 : List Nat :=
  [0xa9, 0x99, 0x3e, 0x36, 0x47, 0x06, 0x81, 0x6a, 0xba, 0x3e, 0x25, 0x71, 0x78, 0x50, 0xc2,
   0x6c, 0x9c, 0xd0, 0xd8, 0x9d]

/-- The array `hash2` of `sha1_test`. -/
def hash2 : List Nat :=
  [0x84, 0x98, 0x3e, 0x44, 0x1c, 0x3b, 0xd2, 0x6e, 0xba, 0xae, 0x4a, 0xa1, 0xf9, 0x51, 0x29,
   0xe5, 0xe5, 0x46, 0x70, 0xf1]

/-- The array `hash3` of `sha1_test`. -/
def hash3 : List Nat :=
  [0x34, 0x95, 0xff, 0x69, 0xd3, 0x46, 0x71, 0xd1, 0xe1, 0x5b, 0x33, 0xa6, 0x3c, 0x13, 0x79,
   0xfd, 0xed, 0xd3, 0xa3, 0x2a]

/-- The digest of the empty message, `DA39A3EE 5E6B4B0D 3255BFEF 95601890 AFD80709`. -/
def emptyDigest : List Nat :=
  [0xda, 0x39, 0xa3, 0xee, 0x5e, 0x6b, 0x4b, 0x0d, 0x32, 0x55, 0xbf, 0xef, 0x95, 0x60, 0x18,
   0x90, 0xaf, 0xd8, 0x07, 0x09]

/-- The value of `pass && !memcmp(a, b, n)` (1 or 0): `memcmp` returns zero exactly
when the first `n` bytes of the two arrays agree. -/
def passAndEqual (pass : Nat) (a b : List Nat) (n : Nat) : Nat :=
  if pass ≠ 0 ∧ a.take n = b.take n then 1 else 0

/-- The function `sha1_test()`; `ctx` and `buf` are the contents its two
uninitialized locals start with. -/
def sha1_test (ctx : SHA1_CTX) (buf : List Nat) : Option Nat := do
  let pass := 1
  let r ← sha1_digest ctx text1 3 buf
  let pass := passAndEqual pass hash1 r.2 20
  let r ← sha1_digest r.1 text2 56 r.2
  let pass := passAndEqual pass hash2 r.2 20
  let r ← sha1_digest r.1 text3 10 r.2
  let pass := passAndEqual pass hash3 r.2 20
  some pass

/-- A context whose buffer is zeroed, for concrete instances. -/
def ctx0 : SHA1_CTX :=
  { data := List.replicate 64 0, datalen := 0, bitlen := 0,
    state := ⟨0, 0, 0, 0, 0⟩, k := ⟨0, 0, 0, 0⟩ }

/-- A zeroed 20-byte output buffer, for concrete instances. -/
def buf0 : List Nat := List.replicate 20 0

/-! ## Definitions for the specification side and for call sequences -/

/-- The choice function of the specification, `(b AND c) OR (NOT b AND d)`, on
32-bit words (`NOT b` flips the 32 bits of `b`). -/
def spec_choice (b c d : Nat) : Nat := (b &&& c) ||| ((b ^^^ 0xFFFFFFFF) &&& d)

/-- The majority function of the specification,
`(b AND c) OR (b AND d) OR (c AND d)`. -/
def spec_majority (b c d : Nat) : Nat := (b &&& c) ||| (b &&& d) ||| (c &&& d)

/-- The parity function of the specification, `b XOR c XOR d`. -/
def spec_parity (b c d : Nat) : Nat := b ^^^ c ^^^ d

/-- One call of the streaming interface after `sha1_init`. -/
inductive Call where
  | update (data : List Nat) (len : Nat)
  | final (hash : List Nat)

/-- The context one call leaves (`none` when the call has no defined result). -/
def runCall (ctx : SHA1_CTX) : Call → Option SHA1_CTX
  | Call.update data len => sha1_update ctx data len
  | Call.final hash => (sha1_final ctx hash).map (fun r => r.1)

/-- The context a sequence of calls leaves. -/
def runCalls (ctx : SHA1_CTX) (calls : List Call) : Option SHA1_CTX :=
  calls.foldlM runCall ctx

/-- The bit count obtained by accumulating 8 bits per input byte in a 64-bit
counter. -/
def countBits (x : List Nat) : Nat := x.foldl (fun bits _ => (bits + 8) % 2 ^ 64) 0

/-- The value the first loop of `sha1_transform` stores in `m[i]`. -/
def packedWord (data : List Nat) (i : Nat) : Nat :=
  ((data.getD (4 * i) 0 <<< 24) + (data.getD (4 * i + 1) 0 <<< 16) +
    (data.getD (4 * i + 2) 0 <<< 8) + data.getD (4 * i + 3) 0) % 2 ^ 32

/-- Every word of the state fits in 32 bits (the type `WORD`). -/
def Words5.IsWord32 (st : Words5) : Prop :=
  st.s0 < 2 ^ 32 ∧ st.s1 < 2 ^ 32 ∧ st.s2 < 2 ^ 32 ∧ st.s3 < 2 ^ 32 ∧ st.s4 < 2 ^ 32

/-- Left rotation of a 32-bit word by `n` places, `0 < n < 32`. -/
def spec_rotl (x n : Nat) : Nat := (x * 2 ^ n + x / 2 ^ (32 - n)) % 2 ^ 32

/-- Word `i` of the block: four bytes packed big-endian, byte `4i` the most
significant. -/
def spec_word (block : List Nat) (i : Nat) : Nat :=
  block.getD (4 * i) 0 * 2 ^ 24 + block.getD (4 * i + 1) 0 * 2 ^ 16 +
    block.getD (4 * i + 2) 0 * 2 ^ 8 + block.getD (4 * i + 3) 0

/-- Mixing function of round `i`: choice, parity, majority, parity, one per quadrant
of 20 rounds. -/
def spec_f (i b c d : Nat) : Nat :=
  if i < 20 then spec_choice b c d
  else if i < 40 then spec_parity b c d
  else if i < 60 then spec_majority b c d
  else spec_parity b c d

/-- Round constant of round `i`: `k0`, `k1`, `k2`, `k3`, one per quadrant of 20
rounds. -/
def spec_k (i : Nat) : Nat :=
  if i < 20 then 0x5A827999
  else if i < 40 then 0x6ED9EBA1
  else if i < 60 then 0x8F1BBCDC
  else 0xCA62C1D6

/-- Round `i` of the specification: `t = leftrotate(a,5) + f + e + k + m[i]` modulo
`2^32`, then `e=d; d=c; c=leftrotate(b,30); b=a; a=t`. -/
def spec_round (m : List Nat) (v : Vars) (i : Nat) : Vars :=
  { a := (spec_rotl v.a 5 + spec_f i v.b v.c v.d + v.e + spec_k i + m.getD i 0) % 2 ^ 32
    b := v.a
    c := spec_rotl v.b 30
    d := v.c
    e := v.d }

/-- The eighty rounds of the specification, from the working variables
initialized with the state. -/
def spec_rounds (m : List Nat) (st : Words5) : Vars :=
  (List.range 80).foldl (spec_round m)
    { a := st.s0, b := st.s1, c := st.s2, d := st.s3, e := st.s4 }

/-- The state the specification returns: `state[j] + (a,b,c,d,e)[j]` modulo `2^32`. -/
def spec_add (st : Words5) (v : Vars) : Words5 :=
  { s0 := (st.s0 + v.a) % 2 ^ 32
    s1 := (st.s1 + v.b) % 2 ^ 32
    s2 := (st.s2 + v.c) % 2 ^ 32
    s3 := (st.s3 + v.d) % 2 ^ 32
    s4 := (st.s4 + v.e) % 2 ^ 32 }

/-! ## Loops, array accesses and the block transform -/

theorem forLoop_done {σ : Type} (lo hi : Nat) (body : Nat → σ → Option σ) (s : σ)
    (h : hi ≤ lo) : forLoop lo hi body s = some s := by
  unfold forLoop
  rw [Nat.sub_eq_zero_of_le h]
  rfl

theorem forLoop_step {σ : Type} (lo hi : Nat) (body : Nat → σ → Option σ) (s : σ)
    (h : lo < hi) : forLoop lo hi body s = (body lo s).bind (forLoop (lo + 1) hi body) := by
  unfold forLoop
  have e : hi - lo = (hi - (lo + 1)) + 1 := by omega
  rw [e, List.range'_succ, List.foldlM_cons]
  rfl

/-- Loop invariant rule: an invariant that every iteration re-establishes holds
when the loop ends, and the loop does end with a result. -/
theorem forLoop_inv {σ : Type} (P : Nat → σ → Prop) (body : Nat → σ → Option σ)
    (hi : Nat)
    (hstep : ∀ i s, i < hi → P i s → ∃ s', body i s = some s' ∧ P (i + 1) s') :
    ∀ (n lo : Nat) (s : σ), hi - lo = n → lo ≤ hi → P lo s →
      ∃ s', forLoop lo hi body s = some s' ∧ P hi s' := by
  intro n
  induction n with
  | zero =>
    intro lo s hn hle hP
    have : lo = hi := by omega
    subst this
    exact ⟨s, forLoop_done _ _ _ _ (le_refl _), hP⟩
  | succ n ih =>
    intro lo s hn hle hP
    have hlt : lo < hi := by omega
    obtain ⟨s1, h1, hP1⟩ := hstep lo s hlt hP
    obtain ⟨s2, h2, hP2⟩ := ih (lo + 1) s1 (by omega) (by omega) hP1
    exact ⟨s2, by rw [forLoop_step _ _ _ _ hlt, h1]; exact h2, hP2⟩

theorem loadAt_some (buf : List Nat) (i : Nat) (h : i < buf.length) :
    loadAt buf i = some buf[i] := by
  unfold loadAt
  exact List.getElem?_eq_getElem h

theorem storeAt_some (buf : List Nat) (i v : Nat) (h : i < buf.length) :
    storeAt buf i v = some (buf.set i v) := by
  unfold storeAt
  rw [if_pos h]

theorem pack_total (data m : List Nat) (hd : 64 ≤ data.length) (hm : m.length = 80) :
    ∃ jm, sha1_transform_pack data m = some jm ∧ jm.2.length = 80 := by
  obtain ⟨s', h, hj, hl⟩ := forLoop_inv (fun i (jm : Nat × List Nat) => jm.1 = 4 * i ∧ jm.2.length = 80)
    (fun i (jm : Nat × List Nat) => do
      let d0 ← loadAt data jm.1
      let d1 ← loadAt data (jm.1 + 1)
      let d2 ← loadAt data (jm.1 + 2)
      let d3 ← loadAt data (jm.1 + 3)
      let m ← storeAt jm.2 i (((d0 <<< 24) + (d1 <<< 16) + (d2 <<< 8) + d3) % 2 ^ 32)
      some (jm.1 + 4, m)) 16
    (by
      rintro i ⟨j, m⟩ hi ⟨hj, hl⟩
      have hj : j = 4 * i := hj
      have hl : m.length = 80 := hl
      simp only [loadAt_some data j (by omega), loadAt_some data (j + 1) (by omega),
        loadAt_some data (j + 2) (by omega), loadAt_some data (j + 3) (by omega),
        storeAt_some m i _ (by omega), Option.bind_eq_bind, Option.some_bind]
      refine ⟨_, rfl, ?_, ?_⟩
      · simp only; omega
      · simp only [List.length_set]; exact hl)
    16 0 (0, m) rfl (by omega) ⟨rfl, hm⟩
  exact ⟨s', h, hl⟩

theorem expand_total (m : List Nat) (hm : m.length = 80) :
    ∃ m', sha1_transform_expand m = some m' ∧ m'.length = 80 := by
  obtain ⟨s', h, hl⟩ := forLoop_inv (fun _ (m : List Nat) => m.length = 80)
    (fun i m => do
      let x3 ← loadAt m (i - 3)
      let x8 ← loadAt m (i - 8)
      let x14 ← loadAt m (i - 14)
      let x16 ← loadAt m (i - 16)
      let m ← storeAt m i (x3 ^^^ x8 ^^^ x14 ^^^ x16)
      let mi ← loadAt m i
      storeAt m i (((mi <<< 1) % 2 ^ 32) ||| (mi >>> 31))) 80
    (by
      intro i m hi hl
      have hl : m.length = 80 := hl
      simp only [loadAt_some m (i - 3) (by omega), loadAt_some m (i - 8) (by omega),
        loadAt_some m (i - 14) (by omega), loadAt_some m (i - 16) (by omega),
        storeAt_some m i _ (by omega), Option.bind_eq_bind, Option.some_bind]
      rw [loadAt_some _ i (by simp only [List.length_set]; omega)]
      simp only [Option.some_bind]
      rw [storeAt_some _ i _ (by simp only [List.length_set]; omega)]
      exact ⟨_, rfl, by simp only [List.length_set]; exact hl⟩)
    64 16 m rfl (by omega) hm
  exact ⟨s', h, hl⟩

theorem rounds_total (f : Vars → Nat) (kq : Nat) (m : List Nat) (hm : m.length = 80)
    (lo hi : Nat) (hle : lo ≤ hi) (hhi : hi ≤ 80) (v : Vars) :
    ∃ v', forLoop lo hi (sha1_round f kq m) v = some v' := by
  obtain ⟨s', h, -⟩ := forLoop_inv (fun _ (_ : Vars) => True) (sha1_round f kq m) hi
    (by
      intro i v hi _
      unfold sha1_round
      simp only [loadAt_some m i (by omega), Option.bind_eq_bind, Option.some_bind]
      exact ⟨_, rfl, trivial⟩)
    (hi - lo) lo v rfl hle trivial
  exact ⟨s', h⟩

theorem sha1_transform_eq (ctx : SHA1_CTX) (data : List Nat) :
    sha1_transform ctx data =
      (transformState ctx.k ctx.state data).map (fun s => { ctx with state := s }) := by
  unfold transformState sha1_transform
  simp only [Option.bind_eq_bind]
  cases sha1_transform_pack data (List.replicate 80 0) with
  | none => rfl
  | some jm =>
    simp only [Option.some_bind]
    cases sha1_transform_expand jm.2 with
    | none => rfl
    | some m =>
      simp only [Option.some_bind]
      cases forLoop 0 20 (sha1_round f_ch ctx.k.k0 m) ⟨ctx.state.s0, ctx.state.s1, ctx.state.s2, ctx.state.s3, ctx.state.s4⟩ with
      | none => rfl
      | some v1 =>
        simp only [Option.some_bind]
        cases forLoop 20 40 (sha1_round f_parity ctx.k.k1 m) v1 with
        | none => rfl
        | some v2 =>
          simp only [Option.some_bind]
          cases forLoop 40 60 (sha1_round f_maj ctx.k.k2 m) v2 with
          | none => rfl
          | some v3 =>
            simp only [Option.some_bind]
            cases forLoop 60 80 (sha1_round f_parity ctx.k.k3 m) v3 with
            | none => rfl
            | some v4 => rfl

theorem sha1_transform_total (ctx : SHA1_CTX) (data : List Nat) (hd : 64 ≤ data.length) :
    ∃ c', sha1_transform ctx data = some c' := by
  unfold sha1_transform
  obtain ⟨jm, h1, hl1⟩ := pack_total data (List.replicate 80 0) hd (by simp)
  obtain ⟨m, h2, hl2⟩ := expand_total jm.2 hl1
  obtain ⟨v1, h3⟩ := rounds_total f_ch ctx.k.k0 m hl2 0 20 (by omega) (by omega)
    ⟨ctx.state.s0, ctx.state.s1, ctx.state.s2, ctx.state.s3, ctx.state.s4⟩
  obtain ⟨v2, h4⟩ := rounds_total f_parity ctx.k.k1 m hl2 20 40 (by omega) (by omega) v1
  obtain ⟨v3, h5⟩ := rounds_total f_maj ctx.k.k2 m hl2 40 60 (by omega) (by omega) v2
  obtain ⟨v4, h6⟩ := rounds_total f_parity ctx.k.k3 m hl2 60 80 (by omega) (by omega) v3
  simp only [h1, h2, h3, h4, h5, h6, Option.bind_eq_bind, Option.some_bind]
  exact ⟨_, rfl⟩

theorem transformState_total (k : Words4) (st : Words5) (block : List Nat)
    (hd : 64 ≤ block.length) : ∃ s, transformState k st block = some s := by
  unfold transformState
  obtain ⟨c', h⟩ := sha1_transform_total
    { data := block, datalen := 0, bitlen := 0, state := st, k := k } block hd
  exact ⟨c'.state, by rw [h]; rfl⟩

/-- Reading `data[i]` along the loop of `sha1_update` is walking through the
first `len` bytes of `data`. -/
theorem forLoop_load_eq_foldlM {σ : Type} (data : List Nat) (f : σ → Nat → Option σ) :
    ∀ (n lo : Nat) (s : σ), lo + n ≤ data.length →
      forLoop lo (lo + n) (fun i s => (loadAt data i).bind (f s)) s =
        ((data.drop lo).take n).foldlM f s := by
  intro n
  induction n with
  | zero =>
    intro lo s _
    rw [forLoop_done _ _ _ _ (by omega)]
    rfl
  | succ n ih =>
    intro lo s h
    rw [forLoop_step _ _ _ _ (by omega), loadAt_some data lo (by omega)]
    have e : data.drop lo = data[lo] :: data.drop (lo + 1) := by
      rw [List.drop_eq_getElem_cons]
    rw [e, List.take_succ_cons, List.foldlM_cons]
    simp only [Option.some_bind, Option.bind_eq_bind]
    congr 1
    funext s1
    have := ih (lo + 1) s1 (by omega)
    rw [show lo + 1 + n = lo + (n + 1) by omega] at this
    exact this

theorem sha1_update_eq_foldlM (ctx : SHA1_CTX) (data : List Nat) (len : Nat)
    (h : len ≤ data.length) :
    sha1_update ctx data len = (data.take len).foldlM sha1_update_byte ctx := by
  have := forLoop_load_eq_foldlM data sha1_update_byte len 0 ctx (by omega)
  simp only [Nat.zero_add, List.drop_zero] at this
  exact this

theorem blocks_short (l : List Nat) (h : l.length < 64) : blocks l = [] := by
  unfold blocks
  rw [Nat.div_eq_of_lt h]
  rfl

theorem blocks_block_append (B r : List Nat) (hB : B.length = 64) :
    blocks (B ++ r) = B :: blocks r := by
  unfold blocks
  have e : (B ++ r).length / 64 = r.length / 64 + 1 := by
    rw [List.length_append, hB]; omega
  rw [e, List.range_succ_eq_map, List.map_cons, List.map_map]
  congr 1
  · simp [hB]
  · apply List.map_congr_left
    intro i _
    simp only [Function.comp]
    have : 64 * (i + 1) = B.length + 64 * i := by omega
    rw [this, List.drop_append]

theorem update_byte_lt (ctx : SHA1_CTX) (b : Nat) (hlen : ctx.data.length = 64)
    (hp : ctx.datalen < 63) :
    sha1_update_byte ctx b =
      some { ctx with data := ctx.data.set ctx.datalen b, datalen := ctx.datalen + 1 } := by
  unfold sha1_update_byte
  rw [storeAt_some _ _ _ (by omega)]
  have e : (ctx.datalen + 1) % 2 ^ 32 = ctx.datalen + 1 := Nat.mod_eq_of_lt (by omega)
  simp only [Option.bind_eq_bind, Option.some_bind, e]
  rw [if_neg (by omega)]

theorem update_byte_full (ctx : SHA1_CTX) (b : Nat) (hlen : ctx.data.length = 64)
    (hp : ctx.datalen = 63) (s1 : Words5)
    (hs : transformState ctx.k ctx.state (ctx.data.set 63 b) = some s1) :
    sha1_update_byte ctx b =
      some { data := ctx.data.set 63 b, datalen := 0, bitlen := (ctx.bitlen + 512) % 2 ^ 64,
             state := s1, k := ctx.k } := by
  unfold sha1_update_byte
  rw [storeAt_some _ _ _ (by omega)]
  simp only [Option.bind_eq_bind, Option.some_bind, hp]
  rw [if_pos (by norm_num), sha1_transform_eq]
  simp only [hs, Option.map_some', Option.some_bind]

theorem set_eq_split (l : List Nat) (p b : Nat) (h : p < l.length) :
    l.set p b = l.take p ++ b :: l.drop (p + 1) :=
  List.set_eq_take_cons_drop b h

theorem set_take_succ (l : List Nat) (p b : Nat) (h : p < l.length) :
    (l.set p b).take (p + 1) = l.take p ++ [b] := by
  rw [set_eq_split l p b h]
  have hl : (l.take p).length = p := by rw [List.length_take]; omega
  rw [List.take_append_eq_append_take, hl, List.take_of_length_le (by omega)]
  simp

/-- What the byte loop of `sha1_update` does to a context whose buffer holds
`datalen < 64` pending bytes, for an input `x`: the complete blocks of
`pending ++ x` are compressed and the rest stays pending. -/
theorem absorb_spec : ∀ (x : List Nat) (ctx : SHA1_CTX), ctx.data.length = 64 →
    ctx.datalen < 64 →
    ∃ c' : SHA1_CTX, x.foldlM sha1_update_byte ctx = some c' ∧
      (blocks (ctx.data.take ctx.datalen ++ x)).foldlM (transformState ctx.k) ctx.state
        = some c'.state ∧
      c'.k = ctx.k ∧
      c'.datalen = (ctx.datalen + x.length) % 64 ∧
      c'.bitlen % 2 ^ 64 = (ctx.bitlen + 512 * ((ctx.datalen + x.length) / 64)) % 2 ^ 64 ∧
      (ctx.bitlen < 2 ^ 64 → c'.bitlen < 2 ^ 64) ∧
      c'.data.length = 64 ∧
      c'.data.take c'.datalen =
        (ctx.data.take ctx.datalen ++ x).drop (64 * ((ctx.datalen + x.length) / 64)) := by
  intro x
  induction x with
  | nil =>
    intro ctx hlen hp
    refine ⟨ctx, rfl, ?_, rfl, ?_, ?_, fun h => h, hlen, ?_⟩
    · rw [blocks_short _ (by simp; omega)]
      rfl
    · simp only [List.length_nil, Nat.add_zero]
      exact (Nat.mod_eq_of_lt hp).symm
    · simp only [List.length_nil, Nat.add_zero, Nat.div_eq_of_lt hp, Nat.mul_zero]
    · simp only [List.length_nil, Nat.add_zero, Nat.div_eq_of_lt hp, List.append_nil,
        Nat.mul_zero, List.drop_zero]
  | cons b x ih =>
    intro ctx hlen hp
    by_cases h63 : ctx.datalen < 63
    · obtain ⟨c', h1, h2, h3, h4, h5, h6, h7, h8⟩ := ih
        { ctx with data := ctx.data.set ctx.datalen b, datalen := ctx.datalen + 1 }
        (by simp only [List.length_set]; exact hlen) (by simp only; omega)
      simp only [set_take_succ ctx.data ctx.datalen b (by omega), List.append_assoc,
        List.singleton_append] at h2 h8
      have e : ctx.datalen + 1 + x.length = ctx.datalen + (b :: x).length := by
        simp only [List.length_cons]; omega
      simp only [e] at h4 h5 h8
      refine ⟨c', ?_, h2, h3, h4, h5, h6, h7, h8⟩
      rw [List.foldlM_cons, update_byte_lt ctx b hlen h63]
      exact h1
    · have hp63 : ctx.datalen = 63 := by omega
      have hB : (ctx.data.set 63 b).length = 64 := by simp only [List.length_set]; exact hlen
      obtain ⟨s1, hs1⟩ := transformState_total ctx.k ctx.state (ctx.data.set 63 b) (by omega)
      obtain ⟨c', h1, h2, h3, h4, h5, h6, h7, h8⟩ := ih
        { data := ctx.data.set 63 b, datalen := 0, bitlen := (ctx.bitlen + 512) % 2 ^ 64,
          state := s1, k := ctx.k } hB (by simp only; omega)
      simp only [List.take_zero, List.nil_append, Nat.zero_add] at h2 h4 h5 h8
      have eB : ctx.data.take ctx.datalen ++ b :: x = ctx.data.set 63 b ++ x := by
        rw [hp63, set_eq_split ctx.data 63 b (by omega),
          List.drop_of_length_le (by omega)]
        simp
      have eq1 : (ctx.datalen + (b :: x).length) / 64 = x.length / 64 + 1 := by
        simp only [List.length_cons]; omega
      have eq2 : (ctx.datalen + (b :: x).length) % 64 = x.length % 64 := by
        simp only [List.length_cons]; omega
      refine ⟨c', ?_, ?_, h3, ?_, ?_, ?_, h7, ?_⟩
      · rw [List.foldlM_cons, update_byte_full ctx b hlen hp63 s1 hs1]
        exact h1
      · rw [eB, blocks_block_append _ _ hB, List.foldlM_cons, hs1]
        exact h2
      · rw [eq2]; exact h4
      · rw [eq1, h5]; omega
      · intro _; exact h6 (Nat.mod_lt _ (by norm_num))
      · rw [eB, eq1, h8]
        have : 64 * (x.length / 64 + 1) = (ctx.data.set 63 b).length + 64 * (x.length / 64) := by
          rw [hB]; omega
        rw [this, List.drop_append]

theorem exists_cons_of_length (l : List Nat) (n : Nat) (h : l.length = n + 1) :
    ∃ a t, l = a :: t ∧ t.length = n := by
  cases l with
  | nil => simp at h
  | cons a t => exact ⟨a, t, rfl, by simpa using h⟩

theorem byte_and (x : Nat) : x &&& 0x000000ff = x % 256 :=
  Nat.and_pow_two_sub_one_eq_mod x 8

theorem forLoop_four {σ : Type} (body : Nat → σ → Option σ) (s : σ) :
    forLoop 0 4 body s =
      (body 0 s).bind (fun s => (body 1 s).bind (fun s => (body 2 s).bind (body 3))) := by
  unfold forLoop
  simp only [Nat.sub_zero, List.range', List.foldlM_cons, List.foldlM_nil, Option.bind_eq_bind]
  congr 1; funext s1; congr 1; funext s2; congr 1; funext s3
  cases body 3 s3 <;> rfl

theorem output_spec (st : Words5) (hash : List Nat) (hh : 20 ≤ hash.length) :
    sha1_final_output st hash = some (serialize st ++ hash.drop 20) := by
  have hsplit : hash = hash.take 20 ++ hash.drop 20 := (List.take_append_drop 20 hash).symm
  have hl : (hash.take 20).length = 20 := by rw [List.length_take]; omega
  generalize hash.drop 20 = tl at hsplit
  generalize hash.take 20 = pre at hsplit hl
  subst hsplit
  obtain ⟨a0, t0, rfl, hl0⟩ := exists_cons_of_length _ _ hl
  obtain ⟨a1, t1, rfl, hl1⟩ := exists_cons_of_length _ _ hl0
  obtain ⟨a2, t2, rfl, hl2⟩ := exists_cons_of_length _ _ hl1
  obtain ⟨a3, t3, rfl, hl3⟩ := exists_cons_of_length _ _ hl2
  obtain ⟨a4, t4, rfl, hl4⟩ := exists_cons_of_length _ _ hl3
  obtain ⟨a5, t5, rfl, hl5⟩ := exists_cons_of_length _ _ hl4
  obtain ⟨a6, t6, rfl, hl6⟩ := exists_cons_of_length _ _ hl5
  obtain ⟨a7, t7, rfl, hl7⟩ := exists_cons_of_length _ _ hl6
  obtain ⟨a8, t8, rfl, hl8⟩ := exists_cons_of_length _ _ hl7
  obtain ⟨a9, t9, rfl, hl9⟩ := exists_cons_of_length _ _ hl8
  obtain ⟨a10, t10, rfl, hl10⟩ := exists_cons_of_length _ _ hl9
  obtain ⟨a11, t11, rfl, hl11⟩ := exists_cons_of_length _ _ hl10
  obtain ⟨a12, t12, rfl, hl12⟩ := exists_cons_of_length _ _ hl11
  obtain ⟨a13, t13, rfl, hl13⟩ := exists_cons_of_length _ _ hl12
  obtain ⟨a14, t14, rfl, hl14⟩ := exists_cons_of_length _ _ hl13
  obtain ⟨a15, t15, rfl, hl15⟩ := exists_cons_of_length _ _ hl14
  obtain ⟨a16, t16, rfl, hl16⟩ := exists_cons_of_length _ _ hl15
  obtain ⟨a17, t17, rfl, hl17⟩ := exists_cons_of_length _ _ hl16
  obtain ⟨a18, t18, rfl, hl18⟩ := exists_cons_of_length _ _ hl17
  obtain ⟨a19, t19, rfl, hl19⟩ := exists_cons_of_length _ _ hl18
  have ht : t19 = [] := List.length_eq_zero.mp hl19
  subst ht
  unfold sha1_final_output
  rw [forLoop_four]
  simp [storeAt, serialize, be32, byte_and, Nat.shiftRight_eq_div_pow]

theorem drop8_eq (l : List Nat) (h : l.length = 64) :
    ∃ a b c d e f g i, l = l.take 56 ++ [a, b, c, d, e, f, g, i] := by
  have hl : (l.drop 56).length = 8 := by rw [List.length_drop]; omega
  obtain ⟨a0, t0, h0, hl0⟩ := exists_cons_of_length _ _ hl
  obtain ⟨a1, t1, rfl, hl1⟩ := exists_cons_of_length _ _ hl0
  obtain ⟨a2, t2, rfl, hl2⟩ := exists_cons_of_length _ _ hl1
  obtain ⟨a3, t3, rfl, hl3⟩ := exists_cons_of_length _ _ hl2
  obtain ⟨a4, t4, rfl, hl4⟩ := exists_cons_of_length _ _ hl3
  obtain ⟨a5, t5, rfl, hl5⟩ := exists_cons_of_length _ _ hl4
  obtain ⟨a6, t6, rfl, hl6⟩ := exists_cons_of_length _ _ hl5
  obtain ⟨a7, t7, rfl, hl7⟩ := exists_cons_of_length _ _ hl6
  have ht : t7 = [] := List.length_eq_zero.mp hl7
  subst ht
  exact ⟨a0, a1, a2, a3, a4, a5, a6, a7, by rw [← h0, List.take_append_drop]⟩

theorem length_spec (ctx : SHA1_CTX) (hlen : ctx.data.length = 64) :
    sha1_final_length ctx =
      some { ctx with
        bitlen := (ctx.bitlen + ctx.datalen * 8) % 2 ^ 64
        data := ctx.data.take 56 ++ be64 ((ctx.bitlen + ctx.datalen * 8) % 2 ^ 64) } := by
  obtain ⟨a, b, c, d, e, f, g, i, hd⟩ := drop8_eq ctx.data hlen
  have hl : (ctx.data.take 56).length = 56 := by rw [List.length_take]; omega
  unfold sha1_final_length
  generalize ctx.data.take 56 = pre at hd hl
  simp only [hd]
  simp [storeAt, hl, be64, Nat.shiftRight_eq_div_pow, List.set_append_right]

/-- The zero-fill loops of `sha1_final`. -/
theorem zero_fill (hi : Nat) : ∀ (n lo : Nat) (buf : List Nat), hi - lo = n → lo ≤ hi →
    hi ≤ buf.length →
    forLoop lo hi (fun i buf => storeAt buf i 0x00) buf =
      some (buf.take lo ++ List.replicate (hi - lo) 0 ++ buf.drop hi) := by
  intro n
  induction n with
  | zero =>
    intro lo buf hn hle _
    have : lo = hi := by omega
    subst this
    rw [forLoop_done _ _ _ _ (le_refl _)]
    simp
  | succ n ih =>
    intro lo buf hn hle hb
    have hlt : lo < hi := by omega
    rw [forLoop_step _ _ _ _ hlt, storeAt_some _ _ _ (by omega), Option.some_bind,
      ih (lo + 1) _ (by omega) (by omega) (by simp only [List.length_set]; exact hb),
      set_take_succ buf lo 0 (by omega), List.drop_set_of_lt _ _ hlt]
    have e : hi - lo = (hi - (lo + 1)) + 1 := by omega
    rw [e, List.replicate_succ]
    simp

theorem pad_short (ctx : SHA1_CTX) (hlen : ctx.data.length = 64) (hp : ctx.datalen < 56) :
    sha1_final_pad ctx =
      some { ctx with
        data := ctx.data.take ctx.datalen ++ 0x80 :: List.replicate (55 - ctx.datalen) 0
                  ++ ctx.data.drop 56 } := by
  unfold sha1_final_pad
  have e : (ctx.datalen + 1) % 2 ^ 32 = ctx.datalen + 1 := Nat.mod_eq_of_lt (by omega)
  simp only [if_pos hp, storeAt_some ctx.data ctx.datalen 0x80 (by omega), e,
    Option.bind_eq_bind, Option.some_bind]
  rw [zero_fill 56 _ (ctx.datalen + 1) _ rfl (by omega)
    (by simp only [List.length_set]; omega),
    set_take_succ ctx.data ctx.datalen 0x80 (by omega),
    List.drop_set_of_lt _ _ (by omega)]
  have : 56 - (ctx.datalen + 1) = 55 - ctx.datalen := by omega
  rw [this]
  simp

theorem pad_long (ctx : SHA1_CTX) (hlen : ctx.data.length = 64) (hp : 56 ≤ ctx.datalen)
    (hp64 : ctx.datalen < 64) (s1 : Words5)
    (hs : transformState ctx.k ctx.state
      (ctx.data.take ctx.datalen ++ 0x80 :: List.replicate (63 - ctx.datalen) 0) = some s1) :
    sha1_final_pad ctx =
      some { ctx with
        data := List.replicate 56 0 ++
          (ctx.data.take ctx.datalen ++ 0x80 :: List.replicate (63 - ctx.datalen) 0).drop 56
        state := s1 } := by
  unfold sha1_final_pad
  have e : (ctx.datalen + 1) % 2 ^ 32 = ctx.datalen + 1 := Nat.mod_eq_of_lt (by omega)
  simp only [if_neg (not_lt.mpr hp), storeAt_some ctx.data ctx.datalen 0x80 (by omega), e,
    Option.bind_eq_bind, Option.some_bind]
  rw [zero_fill 64 _ (ctx.datalen + 1) _ rfl (by omega)
    (by simp only [List.length_set]; omega),
    set_take_succ ctx.data ctx.datalen 0x80 (by omega),
    List.drop_of_length_le (by simp only [List.length_set]; omega)]
  have : 64 - (ctx.datalen + 1) = 63 - ctx.datalen := by omega
  rw [this]
  simp only [List.append_assoc, List.singleton_append, List.append_nil, Option.some_bind]
  rw [sha1_transform_eq]
  simp only [hs, Option.map_some', Option.some_bind]
  unfold memset0
  rw [if_pos (by simp [List.length_take]; omega)]
  rfl

theorem final_short (ctx : SHA1_CTX) (hlen : ctx.data.length = 64) (hp : ctx.datalen < 56)
    (hash : List Nat) (hh : 20 ≤ hash.length) :
    ∃ s, transformState ctx.k ctx.state
        (ctx.data.take ctx.datalen ++ 0x80 :: List.replicate (55 - ctx.datalen) 0
          ++ be64 ((ctx.bitlen + ctx.datalen * 8) % 2 ^ 64)) = some s ∧
      sha1_final ctx hash =
        some ({ data := ctx.data.take ctx.datalen ++ 0x80 :: List.replicate (55 - ctx.datalen) 0
                  ++ be64 ((ctx.bitlen + ctx.datalen * 8) % 2 ^ 64)
                datalen := ctx.datalen
                bitlen := (ctx.bitlen + ctx.datalen * 8) % 2 ^ 64
                state := s
                k := ctx.k }, serialize s ++ hash.drop 20) := by
  have hl1 : (ctx.data.take ctx.datalen ++ 0x80 :: List.replicate (55 - ctx.datalen) 0).length
      = 56 := by
    simp only [List.length_append, List.length_take, List.length_cons, List.length_replicate]
    omega
  obtain ⟨s, hs⟩ := transformState_total ctx.k ctx.state
    (ctx.data.take ctx.datalen ++ 0x80 :: List.replicate (55 - ctx.datalen) 0
      ++ be64 ((ctx.bitlen + ctx.datalen * 8) % 2 ^ 64))
    (by rw [List.length_append, hl1]; simp [be64])
  refine ⟨s, hs, ?_⟩
  unfold sha1_final
  rw [pad_short ctx hlen hp]
  simp only [Option.bind_eq_bind, Option.some_bind]
  rw [length_spec _ (by
    simp only [List.length_append, List.length_take, List.length_cons, List.length_replicate,
      List.length_drop]
    omega)]
  simp only [Option.some_bind]
  have e : (ctx.data.take ctx.datalen ++ 0x80 :: List.replicate (55 - ctx.datalen) 0
      ++ ctx.data.drop 56).take 56
      = ctx.data.take ctx.datalen ++ 0x80 :: List.replicate (55 - ctx.datalen) 0 := by
    rw [List.take_append_eq_append_take, hl1, List.take_of_length_le (by omega)]
    simp
  rw [e, sha1_transform_eq]
  simp only [hs, Option.map_some', Option.some_bind]
  rw [output_spec s hash hh]
  rfl

theorem final_long (ctx : SHA1_CTX) (hlen : ctx.data.length = 64) (hp : 56 ≤ ctx.datalen)
    (hp64 : ctx.datalen < 64) (hash : List Nat) (hh : 20 ≤ hash.length) :
    ∃ s1 s2, transformState ctx.k ctx.state
        (ctx.data.take ctx.datalen ++ 0x80 :: List.replicate (63 - ctx.datalen) 0) = some s1 ∧
      transformState ctx.k s1
        (List.replicate 56 0 ++ be64 ((ctx.bitlen + ctx.datalen * 8) % 2 ^ 64)) = some s2 ∧
      sha1_final ctx hash =
        some ({ data := List.replicate 56 0 ++ be64 ((ctx.bitlen + ctx.datalen * 8) % 2 ^ 64)
                datalen := ctx.datalen
                bitlen := (ctx.bitlen + ctx.datalen * 8) % 2 ^ 64
                state := s2
                k := ctx.k }, serialize s2 ++ hash.drop 20) := by
  have hl1 : (ctx.data.take ctx.datalen ++ 0x80 :: List.replicate (63 - ctx.datalen) 0).length
      = 64 := by
    simp only [List.length_append, List.length_take, List.length_cons, List.length_replicate]
    omega
  obtain ⟨s1, hs1⟩ := transformState_total ctx.k ctx.state
    (ctx.data.take ctx.datalen ++ 0x80 :: List.replicate (63 - ctx.datalen) 0) (by omega)
  obtain ⟨s2, hs2⟩ := transformState_total ctx.k s1
    (List.replicate 56 0 ++ be64 ((ctx.bitlen + ctx.datalen * 8) % 2 ^ 64))
    (by simp [be64])
  refine ⟨s1, s2, hs1, hs2, ?_⟩
  unfold sha1_final
  rw [pad_long ctx hlen hp hp64 s1 hs1]
  simp only [Option.bind_eq_bind, Option.some_bind]
  rw [length_spec _ (by
    simp only [List.length_append, List.length_replicate, List.length_drop, hl1])]
  simp only [Option.some_bind]
  have e : (List.replicate 56 0 ++
      (ctx.data.take ctx.datalen ++ 0x80 :: List.replicate (63 - ctx.datalen) 0).drop 56).take 56
      = List.replicate 56 0 := by
    rw [List.take_append_eq_append_take, List.take_of_length_le (by simp)]
    simp
  rw [e, sha1_transform_eq]
  simp only [hs2, Option.map_some', Option.some_bind]
  rw [output_spec s2 hash hh]
  rfl

theorem blocks_append : ∀ (q : Nat) (A Y : List Nat), A.length = 64 * q →
    blocks (A ++ Y) = blocks A ++ blocks Y := by
  intro q
  induction q with
  | zero =>
    intro A Y h
    have : A = [] := List.length_eq_zero.mp (by omega)
    subst this
    simp [blocks_short]
  | succ q ih =>
    intro A Y h
    have hA : A = A.take 64 ++ A.drop 64 := (List.take_append_drop 64 A).symm
    have h64 : (A.take 64).length = 64 := by rw [List.length_take]; omega
    have hd : (A.drop 64).length = 64 * q := by rw [List.length_drop]; omega
    have h1 : blocks (A ++ Y) = A.take 64 :: blocks (A.drop 64 ++ Y) := by
      conv_lhs => rw [hA, List.append_assoc]
      exact blocks_block_append _ _ h64
    have h2 : blocks A = A.take 64 :: blocks (A.drop 64) := by
      conv_lhs => rw [hA]
      exact blocks_block_append _ _ h64
    rw [h1, h2, ih _ Y hd]
    rfl

theorem be64_mod (n : Nat) : be64 (n % 2 ^ 64) = be64 n := by
  unfold be64
  have h : ∀ j, j ≤ 56 → n % 2 ^ 64 / 2 ^ j % 256 = n / 2 ^ j % 256 := by
    intro j hj
    have e : (2:Nat) ^ 64 = 2 ^ j * (2 ^ (56 - j) * 256) := by
      rw [show (256:Nat) = 2 ^ 8 by norm_num, ← pow_add, ← pow_add]
      congr 1; omega
    rw [e, Nat.mod_mul_right_div_self, Nat.mod_mul_left_mod]
  have h0 := h 0 (by omega)
  simp only [pow_zero, Nat.div_one] at h0
  rw [h 56 (by omega), h 48 (by omega), h 40 (by omega), h 32 (by omega), h 24 (by omega),
    h 16 (by omega), h 8 (by omega), h0]

/-- The blocks of the padded message: the complete blocks of `x`, then the one
or two blocks that `sha1_final` builds from the pending bytes. -/
theorem blocks_padded (x : List Nat) :
    blocks (padded x (padZeros x.length)) =
      blocks x ++
        (if x.length % 64 < 56 then
          [x.drop (64 * (x.length / 64)) ++ 0x80 :: List.replicate (55 - x.length % 64) 0
            ++ be64 (8 * x.length)]
        else
          [x.drop (64 * (x.length / 64)) ++ 0x80 :: List.replicate (63 - x.length % 64) 0,
           List.replicate 56 0 ++ be64 (8 * x.length)]) := by
  have hA : (x.take (64 * (x.length / 64))).length = 64 * (x.length / 64) := by
    rw [List.length_take]; omega
  have hT : (x.drop (64 * (x.length / 64))).length = x.length % 64 := by
    rw [List.length_drop]; omega
  have hbx : blocks x = blocks (x.take (64 * (x.length / 64))) := by
    have h := blocks_append _ _ (x.drop (64 * (x.length / 64))) hA
    rw [List.take_append_drop, blocks_short (x.drop _) (by rw [hT]; omega),
      List.append_nil] at h
    exact h
  have hp : padded x (padZeros x.length) =
      x.take (64 * (x.length / 64)) ++
        (x.drop (64 * (x.length / 64)) ++ 0x80 :: List.replicate (padZeros x.length) 0
          ++ be64 (8 * x.length)) := by
    unfold padded
    rw [← List.append_assoc, ← List.append_assoc, List.take_append_drop]
    simp
  rw [hp, blocks_append _ _ _ hA, ← hbx]
  congr 1
  split
  · rename_i h
    have hz : padZeros x.length = 55 - x.length % 64 := by unfold padZeros; omega
    rw [hz]
    have := blocks_block_append
      (x.drop (64 * (x.length / 64)) ++ 0x80 :: List.replicate (55 - x.length % 64) 0
        ++ be64 (8 * x.length)) []
      (by simp only [List.length_append, hT, List.length_cons, List.length_replicate, be64,
            List.length_nil]; omega)
    rw [List.append_nil, blocks_short [] (by simp)] at this
    exact this
  · rename_i h
    have hz : padZeros x.length = (63 - x.length % 64) + 56 := by unfold padZeros; omega
    rw [hz, List.replicate_add]
    have e : x.drop (64 * (x.length / 64)) ++
        0x80 :: (List.replicate (63 - x.length % 64) 0 ++ List.replicate 56 0)
          ++ be64 (8 * x.length) =
        (x.drop (64 * (x.length / 64)) ++ 0x80 :: List.replicate (63 - x.length % 64) 0) ++
          ((List.replicate 56 0 ++ be64 (8 * x.length)) ++ []) := by
      simp
    rw [e, blocks_block_append _ _ (by
      simp only [List.length_append, hT, List.length_cons, List.length_replicate]; omega),
      blocks_block_append _ _ (by simp [be64]), blocks_short [] (by simp)]

/-- The whole computation `sha1_init; sha1_update(x); sha1_final`: it succeeds,
and the bytes it writes are the serialization of the state folded over the
blocks of the padded message; `hash` is untouched past its first 20 bytes. -/
theorem digest_core (c : SHA1_CTX) (hc : c.data.length = 64) (x hash : List Nat)
    (hh : 20 ≤ hash.length) :
    ∃ st c', foldBlocks x = some st ∧
      sha1_digest c x x.length hash = some (c', serialize st ++ hash.drop 20) ∧
      c'.state = st ∧ c'.data.length = 64 ∧ c'.datalen = x.length % 64 ∧ c'.k = initK ∧
      c'.bitlen = 8 * x.length % 2 ^ 64 := by
  obtain ⟨c1, h1, h2, h3, h4, h5, -, h7, h8⟩ := absorb_spec x (sha1_init c) hc (by
    show 0 < 64
    omega)
  have e0 : (sha1_init c).datalen = 0 := rfl
  have e1 : (sha1_init c).bitlen = 0 := rfl
  have e2 : (sha1_init c).k = initK := rfl
  have e3 : (sha1_init c).state = initState := rfl
  simp only [e0, e1, e2, e3, List.take_zero, List.nil_append, Nat.zero_add] at h2 h3 h4 h5 h8
  have hL : (c1.bitlen + c1.datalen * 8) % 2 ^ 64 = (8 * x.length) % 2 ^ 64 := by
    rw [Nat.add_mod, h5, ← Nat.add_mod, h4]
    congr 1
    omega
  have hupd : sha1_update (sha1_init c) x x.length = some c1 := by
    rw [sha1_update_eq_foldlM _ _ _ (le_refl _), List.take_length]
    exact h1
  unfold sha1_digest foldBlocks
  rw [hupd, blocks_padded, List.foldlM_append, h2]
  simp only [Option.bind_eq_bind, Option.some_bind]
  by_cases hp : c1.datalen < 56
  · obtain ⟨s, hs, hf⟩ := final_short c1 h7 hp hash hh
    rw [hL, be64_mod, h8, h4, h3] at hs
    rw [if_pos (by omega)]
    refine ⟨s, _, ?_, hf, rfl, ?_, h4, h3, hL⟩
    · rw [List.foldlM_cons, hs]
      rfl
    · simp only [List.length_append, List.length_take, List.length_cons,
        List.length_replicate, List.length_nil, be64, h7]
      omega
  · obtain ⟨s1, s2, hs1, hs2, hf⟩ := final_long c1 h7 (by omega) (by omega) hash hh
    rw [hL, be64_mod, h3] at hs2
    rw [h8, h4, h3] at hs1
    rw [if_neg (by omega)]
    refine ⟨s2, _, ?_, hf, rfl, ?_, h4, h3, hL⟩
    · rw [List.foldlM_cons, hs1]
      simp only [Option.bind_eq_bind, Option.some_bind]
      rw [List.foldlM_cons, hs2]
      rfl
    · simp [be64]

theorem padZeros_least (n k : Nat) (hk : (n + 1 + k + 8) % 64 = 0)
    (hmin : ∀ j, j < k → (n + 1 + j + 8) % 64 ≠ 0) : k = padZeros n := by
  have h0 : (n + 1 + padZeros n + 8) % 64 = 0 := by unfold padZeros; omega
  have h1 : padZeros n < 64 := by unfold padZeros; omega
  rcases Nat.lt_trichotomy k (padZeros n) with h | h | h
  · exfalso; omega
  · exact h
  · exact absurd h0 (hmin _ h)

theorem be64_value (n : Nat) (h : n < 2 ^ 64) : beValue (be64 n) = n := by
  unfold beValue be64
  simp only [List.foldl_cons, List.foldl_nil]
  norm_num at h ⊢
  omega

theorem sha1_update_take (ctx : SHA1_CTX) (data : List Nat) (len : Nat)
    (h : len ≤ data.length) :
    sha1_update ctx data len = sha1_update ctx (data.take len) (data.take len).length := by
  have hl : (data.take len).length = len := by rw [List.length_take]; omega
  rw [sha1_update_eq_foldlM _ _ _ h, sha1_update_eq_foldlM _ _ _ (le_refl _), List.take_length]

theorem sha1_digest_take (ctx : SHA1_CTX) (data : List Nat) (len : Nat) (hash : List Nat)
    (h : len ≤ data.length) :
    sha1_digest ctx data len hash =
      sha1_digest ctx (data.take len) (data.take len).length hash := by
  unfold sha1_digest
  rw [sha1_update_take _ _ _ h]

set_option maxRecDepth 100000 in
theorem foldBlocks_text1 :
    (foldBlocks (text1.take 3)).map serialize = some hash1 := by rfl

set_option maxRecDepth 100000 in
theorem foldBlocks_text2 :
    (foldBlocks (text2.take 56)).map serialize = some hash2 := by rfl

set_option maxRecDepth 100000 in
theorem foldBlocks_text3 :
    (foldBlocks (text3.take 10)).map serialize = some hash3 := by rfl

set_option maxRecDepth 100000 in
theorem foldBlocks_empty :
    (foldBlocks []).map serialize = some emptyDigest := by rfl

/-- A known-answer vector through the whole call sequence, from any context and
any output buffer. -/
theorem digest_known (c : SHA1_CTX) (hc : c.data.length = 64) (data : List Nat) (len : Nat)
    (hl : len ≤ data.length) (hash expected : List Nat) (hh : 20 ≤ hash.length)
    (hk : (foldBlocks (data.take len)).map serialize = some expected) :
    ∃ c', sha1_digest c data len hash = some (c', expected ++ hash.drop 20) ∧
      c'.data.length = 64 := by
  obtain ⟨st, c', h1, h2, -, h4, -⟩ := digest_core c hc (data.take len) hash hh
  rw [h1, Option.map_some', Option.some.injEq] at hk
  rw [sha1_digest_take _ _ _ _ hl, h2, hk]
  exact ⟨c', rfl, h4⟩

theorem update_chunks_eq : ∀ (chunks : List (List Nat)) (ctx : SHA1_CTX),
    sha1_update_chunks ctx chunks = chunks.flatten.foldlM sha1_update_byte ctx := by
  intro chunks
  induction chunks with
  | nil => intro ctx; rfl
  | cons ch rest ih =>
    intro ctx
    unfold sha1_update_chunks at ih ⊢
    rw [List.foldlM_cons, List.flatten_cons, List.foldlM_append,
      sha1_update_eq_foldlM _ _ _ (le_refl _), List.take_length]
    congr 1
    funext c1
    exact ih c1

theorem storeAt_eq_some (buf : List Nat) (i v : Nat) (r : List Nat)
    (h : storeAt buf i v = some r) : i < buf.length ∧ r = buf.set i v := by
  unfold storeAt at h
  split at h
  · rename_i hlt
    exact ⟨hlt, (Option.some.inj h).symm⟩
  · exact absurd h (by simp)

theorem storeAt_length (buf : List Nat) (i v : Nat) (r : List Nat)
    (h : storeAt buf i v = some r) : r.length = buf.length := by
  rw [(storeAt_eq_some buf i v r h).2, List.length_set]

/-- The output loop succeeds only on a buffer of at least 20 bytes. -/
theorem output_some_length (st : Words5) (hash out : List Nat)
    (h : sha1_final_output st hash = some out) : 20 ≤ hash.length := by
  unfold sha1_final_output at h
  rw [forLoop_four] at h
  simp only [Option.bind_eq_bind, Option.bind_eq_some] at h
  obtain ⟨b0, ⟨a1, h1, a2, h2, a3, h3, a4, h4, h5⟩, b1, ⟨a6, h6, a7, h7, a8, h8, a9, h9, h10⟩,
    b2, ⟨a11, h11, a12, h12, a13, h13, a14, h14, h15⟩, a16, h16, a17, h17, a18, h18, a19, h19,
    h20⟩ := h
  have l1 := storeAt_length _ _ _ _ h1
  have l2 := storeAt_length _ _ _ _ h2
  have l3 := storeAt_length _ _ _ _ h3
  have l4 := storeAt_length _ _ _ _ h4
  have l5 := storeAt_length _ _ _ _ h5
  have l6 := storeAt_length _ _ _ _ h6
  have l7 := storeAt_length _ _ _ _ h7
  have l8 := storeAt_length _ _ _ _ h8
  have l9 := storeAt_length _ _ _ _ h9
  have l10 := storeAt_length _ _ _ _ h10
  have l11 := storeAt_length _ _ _ _ h11
  have l12 := storeAt_length _ _ _ _ h12
  have l13 := storeAt_length _ _ _ _ h13
  have l14 := storeAt_length _ _ _ _ h14
  have l15 := storeAt_length _ _ _ _ h15
  have l16 := storeAt_length _ _ _ _ h16
  have l17 := storeAt_length _ _ _ _ h17
  have l18 := storeAt_length _ _ _ _ h18
  have l19 := storeAt_length _ _ _ _ h19
  have l20 := (storeAt_eq_some _ _ _ _ h20).1
  omega

/-- Whatever `sha1_final` returns, its output buffer is what the output loop
makes of the state it returns. -/
theorem final_output_of_some (ctx : SHA1_CTX) (hash : List Nat) (c' : SHA1_CTX)
    (out : List Nat) (h : sha1_final ctx hash = some (c', out)) :
    sha1_final_output c'.state hash = some out := by
  unfold sha1_final at h
  simp only [Option.bind_eq_bind, Option.bind_eq_some] at h
  obtain ⟨a1, -, a2, -, a3, -, a4, h4, h5⟩ := h
  have e := Option.some.inj h5
  have e1 : a3 = c' := congrArg Prod.fst e
  have e2 : a4 = out := congrArg Prod.snd e
  rw [← e1, ← e2]
  exact h4

/-- The shape of what `sha1_final` returns on a context with fewer than 64
pending bytes. -/
theorem final_total (ctx : SHA1_CTX) (hlen : ctx.data.length = 64) (hp : ctx.datalen < 64)
    (hash : List Nat) (hh : 20 ≤ hash.length) :
    ∃ c', sha1_final ctx hash = some (c', serialize c'.state ++ hash.drop 20) ∧
      c'.datalen = ctx.datalen ∧ c'.data.length = 64 ∧ c'.k = ctx.k := by
  by_cases h56 : ctx.datalen < 56
  · obtain ⟨s, -, hf⟩ := final_short ctx hlen h56 hash hh
    refine ⟨_, hf, rfl, ?_, rfl⟩
    simp only [List.length_append, List.length_take, List.length_cons,
      List.length_replicate, List.length_nil, be64, hlen]
    omega
  · obtain ⟨s1, s2, -, -, hf⟩ := final_long ctx hlen (by omega) hp hash hh
    exact ⟨_, hf, rfl, by simp [be64], rfl⟩

theorem serialize_length (st : Words5) : (serialize st).length = 20 := rfl

theorem serialize_getElem (st : Words5) (tl : List Nat) (j i : Nat) (hj : j < 5) (hi : i < 4) :
    (serialize st ++ tl)[4 * j + i]? = some (st.word j / 2 ^ (24 - 8 * i) % 256) := by
  interval_cases j <;> interval_cases i <;> simp [serialize, be32, Words5.word]

/-! ## The block transform against the specification, frames and call sequences -/

theorem testBit_of_lt_word (b i : Nat) (hb : b < 2 ^ 32) (hi : 32 ≤ i) :
    b.testBit i = false :=
  Nat.testBit_lt_two_pow (lt_of_lt_of_le hb (Nat.pow_le_pow_right (by norm_num) hi))

/-- On a 32-bit word the complement `~b` flips the 32 bits. -/
theorem NOT32_eq_xor (b : Nat) (hb : b < 2 ^ 32) : NOT32 b = b ^^^ 0xFFFFFFFF := by
  apply Nat.eq_of_testBit_eq
  intro i
  have e : NOT32 b = 2 ^ 32 - (b + 1) := by unfold NOT32; omega
  have e2 : (0xFFFFFFFF : Nat) = 2 ^ 32 - 1 := by norm_num
  rw [e, Nat.testBit_two_pow_sub_succ hb, Nat.testBit_xor, e2, Nat.testBit_two_pow_sub_one]
  by_cases hi : i < 32
  · simp [hi]
  · simp [hi, testBit_of_lt_word b i hb (by omega)]

theorem f_ch_eq_choice (v : Vars) (hb : v.b < 2 ^ 32) :
    f_ch v = spec_choice v.b v.c v.d := by
  unfold f_ch spec_choice
  rw [NOT32_eq_xor _ hb]
  apply Nat.eq_of_testBit_eq
  intro i
  have e2 : (0xFFFFFFFF : Nat) = 2 ^ 32 - 1 := by norm_num
  simp only [Nat.testBit_xor, Nat.testBit_and, Nat.testBit_or, e2, Nat.testBit_two_pow_sub_one]
  by_cases hi : i < 32
  · simp only [hi, decide_True]
    cases v.b.testBit i <;> cases v.c.testBit i <;> cases v.d.testBit i <;> rfl
  · simp only [hi, decide_False, testBit_of_lt_word v.b i hb (by omega)]
    cases v.c.testBit i <;> cases v.d.testBit i <;> rfl

theorem f_maj_eq_majority (v : Vars) : f_maj v = spec_majority v.b v.c v.d := by
  unfold f_maj spec_majority
  apply Nat.eq_of_testBit_eq
  intro i
  simp only [Nat.testBit_xor, Nat.testBit_and, Nat.testBit_or]
  cases v.b.testBit i <;> cases v.c.testBit i <;> cases v.d.testBit i <;> rfl

/-- Partial-correctness rule for loops: a property every iteration preserves is
preserved by the loop. -/
theorem forLoop_preserves {σ : Type} (P : σ → Prop) (body : Nat → σ → Option σ) (hi : Nat)
    (hstep : ∀ i s s', body i s = some s' → P s → P s') :
    ∀ (n lo : Nat) (s s' : σ), hi - lo = n → forLoop lo hi body s = some s' → P s → P s' := by
  intro n
  induction n with
  | zero =>
    intro lo s s' hn h hP
    rw [forLoop_done _ _ _ _ (by omega)] at h
    rw [← Option.some.inj h]
    exact hP
  | succ n ih =>
    intro lo s s' hn h hP
    rw [forLoop_step _ _ _ _ (by omega)] at h
    cases hb : body lo s with
    | none => rw [hb] at h; exact absurd h (by simp)
    | some s1 =>
      rw [hb, Option.some_bind] at h
      exact ih (lo + 1) s1 s' (by omega) h (hstep lo s s1 hb hP)

theorem transform_frame (ctx c' : SHA1_CTX) (data : List Nat)
    (h : sha1_transform ctx data = some c') :
    c'.data = ctx.data ∧ c'.datalen = ctx.datalen ∧ c'.bitlen = ctx.bitlen ∧ c'.k = ctx.k := by
  rw [sha1_transform_eq] at h
  cases hs : transformState ctx.k ctx.state data with
  | none => rw [hs] at h; exact absurd h (by simp)
  | some s =>
    rw [hs, Option.map_some'] at h
    rw [← Option.some.inj h]
    exact ⟨rfl, rfl, rfl, rfl⟩

theorem update_byte_k (ctx c' : SHA1_CTX) (b : Nat) (h : sha1_update_byte ctx b = some c') :
    c'.k = ctx.k := by
  unfold sha1_update_byte at h
  simp only [Option.bind_eq_bind, Option.bind_eq_some] at h
  obtain ⟨buf, -, h⟩ := h
  split at h
  · simp only [Option.bind_eq_some] at h
    obtain ⟨c2, h2, h3⟩ := h
    rw [← Option.some.inj h3]
    exact (transform_frame _ _ _ h2).2.2.2
  · rw [← Option.some.inj h]

theorem update_k (ctx c' : SHA1_CTX) (data : List Nat) (len : Nat)
    (h : sha1_update ctx data len = some c') : c'.k = ctx.k := by
  unfold sha1_update at h
  refine forLoop_preserves (fun s : SHA1_CTX => s.k = ctx.k) _ len ?_ len 0 ctx c' rfl h rfl
  intro i s s' hb hP
  simp only [Option.bind_eq_bind, Option.bind_eq_some] at hb
  obtain ⟨b, -, hb⟩ := hb
  rw [update_byte_k _ _ _ hb]
  exact hP

theorem final_pad_k (ctx c' : SHA1_CTX) (h : sha1_final_pad ctx = some c') : c'.k = ctx.k := by
  unfold sha1_final_pad at h
  split at h
  · simp only [Option.bind_eq_bind, Option.bind_eq_some] at h
    obtain ⟨b1, -, b2, -, h⟩ := h
    rw [← Option.some.inj h]
  · simp only [Option.bind_eq_bind, Option.bind_eq_some] at h
    obtain ⟨b1, -, b2, -, c2, h2, b3, -, h⟩ := h
    rw [← Option.some.inj h]
    exact (transform_frame _ _ _ h2).2.2.2

theorem final_length_k (ctx c' : SHA1_CTX) (h : sha1_final_length ctx = some c') :
    c'.k = ctx.k := by
  unfold sha1_final_length at h
  simp only [Option.bind_eq_bind, Option.bind_eq_some] at h
  obtain ⟨b1, -, b2, -, b3, -, b4, -, b5, -, b6, -, b7, -, b8, -, h⟩ := h
  rw [← Option.some.inj h]

theorem final_k (ctx c' : SHA1_CTX) (hash out : List Nat)
    (h : sha1_final ctx hash = some (c', out)) : c'.k = ctx.k := by
  unfold sha1_final at h
  simp only [Option.bind_eq_bind, Option.bind_eq_some] at h
  obtain ⟨c1, h1, c2, h2, c3, h3, o, -, h⟩ := h
  have e : c3 = c' := congrArg Prod.fst (Option.some.inj h)
  rw [← e, (transform_frame _ _ _ h3).2.2.2, final_length_k _ _ h2, final_pad_k _ _ h1]

theorem runCall_k (ctx c' : SHA1_CTX) (call : Call) (h : runCall ctx call = some c') :
    c'.k = ctx.k := by
  cases call with
  | update data len => exact update_k _ _ _ _ h
  | final hash =>
    unfold runCall at h
    simp only [Option.map_eq_some'] at h
    obtain ⟨r, hr, e⟩ := h
    rw [← e]
    exact final_k ctx r.1 hash r.2 hr

theorem runCalls_k : ∀ (calls : List Call) (ctx c' : SHA1_CTX),
    runCalls ctx calls = some c' → c'.k = ctx.k := by
  intro calls
  induction calls with
  | nil =>
    intro ctx c' h
    rw [← Option.some.inj h]
  | cons call rest ih =>
    intro ctx c' h
    unfold runCalls at h ih
    rw [List.foldlM_cons] at h
    simp only [Option.bind_eq_bind, Option.bind_eq_some] at h
    obtain ⟨c1, h1, h2⟩ := h
    rw [ih c1 c' h2, runCall_k _ _ _ h1]

theorem update_total (c : SHA1_CTX) (hc : c.data.length = 64) (hp : c.datalen < 64)
    (data : List Nat) (len : Nat) (hl : len ≤ data.length) :
    ∃ c', sha1_update c data len = some c' ∧ c'.datalen < 64 ∧ c'.data.length = 64 := by
  obtain ⟨c', h1, -, -, h4, -, -, h7, -⟩ := absorb_spec (data.take len) c hc hp
  refine ⟨c', ?_, ?_, h7⟩
  · rw [sha1_update_eq_foldlM _ _ _ hl]
    exact h1
  · rw [h4]
    exact Nat.mod_lt _ (by norm_num)

theorem forLoop_guard {σ : Type} (body : Nat → σ → Option σ) (hi : Nat) :
    ∀ (n lo lo0 : Nat) (s : σ), hi - lo = n → lo0 ≤ lo →
      forLoop lo hi body s =
        forLoop lo hi (fun i s => if lo0 ≤ i ∧ i < hi then body i s else none) s := by
  intro n
  induction n with
  | zero =>
    intro lo lo0 s hn _
    rw [forLoop_done _ _ _ _ (by omega), forLoop_done _ _ _ _ (by omega)]
  | succ n ih =>
    intro lo lo0 s hn hle
    rw [forLoop_step _ _ _ _ (by omega), forLoop_step _ _ _ _ (by omega),
      if_pos ⟨hle, by omega⟩]
    congr 1
    funext s1
    exact ih (lo + 1) lo0 s1 (by omega) (by omega)

theorem countBits_aux : ∀ (x : List Nat) (a : Nat),
    x.foldl (fun bits _ => (bits + 8) % 2 ^ 64) a % 2 ^ 64 = (a + 8 * x.length) % 2 ^ 64 ∧
    (a < 2 ^ 64 → x.foldl (fun bits _ => (bits + 8) % 2 ^ 64) a < 2 ^ 64) := by
  intro x
  induction x with
  | nil => intro a; exact ⟨rfl, fun h => h⟩
  | cons b x ih =>
    intro a
    obtain ⟨h1, h2⟩ := ih ((a + 8) % 2 ^ 64)
    refine ⟨?_, fun _ => h2 (Nat.mod_lt _ (by norm_num))⟩
    rw [List.foldl_cons, h1, List.length_cons]
    omega

theorem countBits_eq (x : List Nat) : countBits x = 8 * x.length % 2 ^ 64 := by
  obtain ⟨h1, h2⟩ := countBits_aux x 0
  unfold countBits
  rw [← Nat.mod_eq_of_lt (h2 (by norm_num)), h1, Nat.zero_add]

/-- The length field `sha1_final` leaves in the last block it transforms. -/
theorem final_length_field (ctx : SHA1_CTX) (hlen : ctx.data.length = 64)
    (hp : ctx.datalen < 64) (hash : List Nat) (hh : 20 ≤ hash.length) :
    ∃ c' out s, sha1_final ctx hash = some (c', out) ∧
      transformState ctx.k s c'.data = some c'.state ∧
      c'.data.length = 64 ∧
      c'.data.drop 56 = be64 ((ctx.bitlen + ctx.datalen * 8) % 2 ^ 64) ∧
      c'.bitlen = (ctx.bitlen + ctx.datalen * 8) % 2 ^ 64 := by
  by_cases h56 : ctx.datalen < 56
  · obtain ⟨s, hs, hf⟩ := final_short ctx hlen h56 hash hh
    have hl1 : (ctx.data.take ctx.datalen ++ 0x80 :: List.replicate (55 - ctx.datalen) 0).length
        = 56 := by
      simp only [List.length_append, List.length_take, List.length_cons, List.length_replicate]
      omega
    refine ⟨_, _, ctx.state, hf, hs, ?_, ?_, rfl⟩
    · simp only [List.length_append, hl1, be64, List.length_cons, List.length_nil]
    · show (_ ++ be64 _).drop 56 = _
      rw [List.drop_append_of_le_length (by omega), List.drop_of_length_le (by omega)]
      rfl
  · obtain ⟨s1, s2, -, hs2, hf⟩ := final_long ctx hlen (by omega) hp hash hh
    refine ⟨_, _, s1, hf, hs2, by simp [be64], ?_, rfl⟩
    show (List.replicate 56 0 ++ be64 _).drop 56 = _
    rw [List.drop_append_of_le_length (by simp), List.drop_of_length_le (by simp)]
    rfl

theorem loadAt_getD (buf : List Nat) (i : Nat) (h : i < buf.length) :
    loadAt buf i = some (buf.getD i 0) := by
  rw [loadAt_some buf i h, List.getD_eq_getElem _ _ h]

/-- The first loop of `sha1_transform` fills `m[0..15]` with the packed words and
leaves the rest of `m` as it was. -/
theorem pack_spec (data m0 : List Nat) (hd : 64 ≤ data.length) (hm : 16 ≤ m0.length) :
    sha1_transform_pack data m0 =
      some (64, (List.range 16).map (packedWord data) ++ m0.drop 16) := by
  obtain ⟨s', h, hj, hmm⟩ := forLoop_inv
    (fun i (jm : Nat × List Nat) =>
      jm.1 = 4 * i ∧ jm.2 = (List.range i).map (packedWord data) ++ m0.drop i)
    (fun i (jm : Nat × List Nat) => do
      let d0 ← loadAt data jm.1
      let d1 ← loadAt data (jm.1 + 1)
      let d2 ← loadAt data (jm.1 + 2)
      let d3 ← loadAt data (jm.1 + 3)
      let m ← storeAt jm.2 i (((d0 <<< 24) + (d1 <<< 16) + (d2 <<< 8) + d3) % 2 ^ 32)
      some (jm.1 + 4, m)) 16
    (by
      rintro i ⟨j, m⟩ hi ⟨hj0, hm0⟩
      have hj : j = 4 * i := hj0
      have hm1 : m = (List.range i).map (packedWord data) ++ m0.drop i := hm0
      clear hj0 hm0
      have hla : ((List.range i).map (packedWord data)).length = i := by simp
      have hlen : i < m.length := by
        rw [hm1, List.length_append, hla, List.length_drop]; omega
      subst hj
      simp only [loadAt_getD data (4 * i) (by omega), loadAt_getD data (4 * i + 1) (by omega),
        loadAt_getD data (4 * i + 2) (by omega), loadAt_getD data (4 * i + 3) (by omega),
        storeAt_some m i _ hlen, Option.bind_eq_bind, Option.some_bind]
      refine ⟨_, rfl, ?_, ?_⟩
      · show 4 * i + 4 = 4 * (i + 1)
        omega
      · show m.set i _ = _
        rw [hm1, List.set_append_right _ _ (by rw [hla]), hla, Nat.sub_self,
          List.drop_eq_getElem_cons (by omega : i < m0.length), List.set_cons_zero,
          List.range_succ, List.map_append, List.append_assoc]
        rfl)
    16 0 (0, m0) rfl (by omega) ⟨rfl, by simp⟩
  unfold sha1_transform_pack
  rw [h]
  have e : s' = (s'.1, s'.2) := rfl
  rw [e, hj, hmm]

theorem be32_pack (w : Nat) (h : w < 2 ^ 32) :
    (((w / 2 ^ 24 % 256) <<< 24) + ((w / 2 ^ 16 % 256) <<< 16) + ((w / 2 ^ 8 % 256) <<< 8) +
      w % 256) % 2 ^ 32 = w := by
  simp only [Nat.shiftLeft_eq]
  norm_num at h ⊢
  omega

/-- Packing the serialized state four bytes at a time gives the state words back. -/
theorem packedWord_serialize (s : Words5) (hs : s.IsWord32) (tl : List Nat) (j : Nat)
    (hj : j < 5) : packedWord (serialize s ++ tl) j = s.word j := by
  obtain ⟨h0, h1, h2, h3, h4⟩ := hs
  interval_cases j
  · exact be32_pack s.s0 h0
  · exact be32_pack s.s1 h1
  · exact be32_pack s.s2 h2
  · exact be32_pack s.s3 h3
  · exact be32_pack s.s4 h4

theorem words5_ext (s t : Words5) (h : ∀ j, j < 5 → s.word j = t.word j) : s = t := by
  have h0 := h 0 (by omega)
  have h1 := h 1 (by omega)
  have h2 := h 2 (by omega)
  have h3 := h 3 (by omega)
  have h4 := h 4 (by omega)
  cases s
  cases t
  simp only [Words5.word] at h0 h1 h2 h3 h4
  simp only [Words5.mk.injEq]
  exact ⟨h0, h1, h2, h3, h4⟩

theorem serialize_injective (s t : Words5) (hs : s.IsWord32) (ht : t.IsWord32)
    (h : serialize s = serialize t) : s = t := by
  apply words5_ext
  intro j hj
  rw [← packedWord_serialize s hs [] j hj, ← packedWord_serialize t ht [] j hj, h]

theorem output_take (st : Words5) (hash out : List Nat)
    (h : sha1_final_output st hash = some out) : out.take 20 = serialize st := by
  have hh := output_some_length _ _ _ h
  rw [output_spec _ _ hh] at h
  rw [← Option.some.inj h, List.take_append_of_le_length (by rw [serialize_length]),
    List.take_of_length_le (by rw [serialize_length])]

theorem rotl_1 (x : Nat) (hx : x < 2 ^ 32) :
    ((x <<< 1) % 2 ^ 32) ||| (x >>> 31) = spec_rotl x 1 := by
  unfold spec_rotl
  simp only [Nat.shiftLeft_eq, Nat.shiftRight_eq_div_pow]
  have h1 : x * 2 ^ 1 % 2 ^ 32 = 2 ^ 1 * (x % 2 ^ 31) := by norm_num at hx ⊢; omega
  have h2 : x / 2 ^ 31 < 2 ^ 1 := by norm_num at hx ⊢; omega
  rw [h1, ← Nat.mul_add_lt_is_or h2]
  norm_num at hx ⊢
  omega

theorem rotl_5 (x : Nat) (hx : x < 2 ^ 32) : ROTLEFT x 5 = spec_rotl x 5 := by
  unfold spec_rotl ROTLEFT
  simp only [Nat.shiftLeft_eq, Nat.shiftRight_eq_div_pow]
  have h1 : x * 2 ^ 5 % 2 ^ 32 = 2 ^ 5 * (x % 2 ^ 27) := by norm_num at hx ⊢; omega
  have h2 : x / 2 ^ (32 - 5) < 2 ^ 5 := by norm_num at hx ⊢; omega
  rw [h1, ← Nat.mul_add_lt_is_or h2]
  norm_num at hx ⊢
  omega

theorem rotl_30 (x : Nat) (hx : x < 2 ^ 32) : ROTLEFT x 30 = spec_rotl x 30 := by
  unfold spec_rotl ROTLEFT
  simp only [Nat.shiftLeft_eq, Nat.shiftRight_eq_div_pow]
  have h1 : x * 2 ^ 30 % 2 ^ 32 = 2 ^ 30 * (x % 2 ^ 2) := by norm_num at hx ⊢; omega
  have h2 : x / 2 ^ (32 - 30) < 2 ^ 30 := by norm_num at hx ⊢; omega
  rw [h1, ← Nat.mul_add_lt_is_or h2]
  norm_num at hx ⊢
  omega

theorem spec_rotl_lt (x n : Nat) : spec_rotl x n < 2 ^ 32 :=
  Nat.mod_lt _ (by norm_num)

theorem getD_lt_of_bytes (block : List Nat) (hbytes : ∀ b ∈ block, b < 256) (i : Nat) :
    block.getD i 0 < 256 := by
  by_cases h : i < block.length
  · rw [List.getD_eq_getElem _ _ h]
    exact hbytes _ (List.getElem_mem _)
  · rw [List.getD_eq_default _ _ (by omega)]
    norm_num

/-- On bytes the packing of the code is the big-endian word of the specification. -/
theorem packedWord_eq_spec (block : List Nat) (hbytes : ∀ b ∈ block, b < 256) (i : Nat) :
    packedWord block i = spec_word block i := by
  unfold packedWord spec_word
  have h0 := getD_lt_of_bytes block hbytes (4 * i)
  have h1 := getD_lt_of_bytes block hbytes (4 * i + 1)
  have h2 := getD_lt_of_bytes block hbytes (4 * i + 2)
  have h3 := getD_lt_of_bytes block hbytes (4 * i + 3)
  generalize block.getD (4 * i) 0 = b0 at h0 ⊢
  generalize block.getD (4 * i + 1) 0 = b1 at h1 ⊢
  generalize block.getD (4 * i + 2) 0 = b2 at h2 ⊢
  generalize block.getD (4 * i + 3) 0 = b3 at h3 ⊢
  simp only [Nat.shiftLeft_eq]
  norm_num
  omega

theorem spec_word_lt (block : List Nat) (hbytes : ∀ b ∈ block, b < 256) (i : Nat) :
    spec_word block i < 2 ^ 32 := by
  rw [← packedWord_eq_spec block hbytes i]
  exact Nat.mod_lt _ (by norm_num)

theorem getD_set_ne (m : List Nat) (i t v : Nat) (h : i ≠ t) :
    (m.set i v).getD t 0 = m.getD t 0 := by
  simp only [List.getD_eq_getElem?_getD, List.getElem?_set_ne h]

theorem getD_set_eq (m : List Nat) (i v : Nat) (h : i < m.length) :
    (m.set i v).getD i 0 = v := by
  simp only [List.getD_eq_getElem?_getD, List.getElem?_set_self h, Option.getD_some]

/-- The second loop of `sha1_transform` keeps `m[0..15]` and fills `m[16..79]`
by the recurrence of the message schedule. -/
theorem expand_spec (block m16 : List Nat) (hbytes : ∀ b ∈ block, b < 256)
    (hm : m16.length = 80) (h16 : ∀ t, t < 16 → m16.getD t 0 = spec_word block t) :
    ∃ m, sha1_transform_expand m16 = some m ∧ m.length = 80 ∧
      (∀ t, t < 16 → m.getD t 0 = spec_word block t) ∧
      (∀ t, 16 ≤ t → t < 80 →
        m.getD t 0 = spec_rotl (m.getD (t - 3) 0 ^^^ m.getD (t - 8) 0 ^^^ m.getD (t - 14) 0 ^^^
          m.getD (t - 16) 0) 1) := by
  obtain ⟨m, h, -, hl, hw, hr, -⟩ := forLoop_inv
    (fun i (m : List Nat) => 16 ≤ i ∧ m.length = 80 ∧
      (∀ t, t < 16 → m.getD t 0 = spec_word block t) ∧
      (∀ t, 16 ≤ t → t < i →
        m.getD t 0 = spec_rotl (m.getD (t - 3) 0 ^^^ m.getD (t - 8) 0 ^^^ m.getD (t - 14) 0 ^^^
          m.getD (t - 16) 0) 1) ∧
      (∀ t, t < i → m.getD t 0 < 2 ^ 32))
    (fun i m => do
      let x3 ← loadAt m (i - 3)
      let x8 ← loadAt m (i - 8)
      let x14 ← loadAt m (i - 14)
      let x16 ← loadAt m (i - 16)
      let m ← storeAt m i (x3 ^^^ x8 ^^^ x14 ^^^ x16)
      let mi ← loadAt m i
      storeAt m i (((mi <<< 1) % 2 ^ 32) ||| (mi >>> 31))) 80
    (by
      intro i m hi hP
      obtain ⟨h16i, hl, hw, hr, hlt⟩ := hP
      have hx : m.getD (i - 3) 0 ^^^ m.getD (i - 8) 0 ^^^ m.getD (i - 14) 0 ^^^
          m.getD (i - 16) 0 < 2 ^ 32 :=
        Nat.xor_lt_two_pow (Nat.xor_lt_two_pow (Nat.xor_lt_two_pow (hlt _ (by omega))
          (hlt _ (by omega))) (hlt _ (by omega))) (hlt _ (by omega))
      simp only [loadAt_getD m (i - 3) (by omega), loadAt_getD m (i - 8) (by omega),
        loadAt_getD m (i - 14) (by omega), loadAt_getD m (i - 16) (by omega),
        storeAt_some m i _ (by omega), Option.bind_eq_bind, Option.some_bind]
      rw [loadAt_getD _ i (by simp only [List.length_set]; omega)]
      simp only [Option.some_bind]
      rw [storeAt_some _ i _ (by simp only [List.length_set]; omega),
        getD_set_eq m i _ (by omega), rotl_1 _ hx]
      refine ⟨_, rfl, by omega, by simp only [List.length_set]; exact hl, ?_, ?_, ?_⟩
      · intro t ht
        rw [getD_set_ne _ i t _ (by omega), getD_set_ne _ i t _ (by omega)]
        exact hw t ht
      · intro t ht16 hti
        by_cases hte : t = i
        · subst hte
          rw [getD_set_eq _ t _ (by simp only [List.length_set]; omega),
            getD_set_ne _ t (t - 3) _ (by omega), getD_set_ne _ t (t - 3) _ (by omega),
            getD_set_ne _ t (t - 8) _ (by omega), getD_set_ne _ t (t - 8) _ (by omega),
            getD_set_ne _ t (t - 14) _ (by omega), getD_set_ne _ t (t - 14) _ (by omega),
            getD_set_ne _ t (t - 16) _ (by omega), getD_set_ne _ t (t - 16) _ (by omega)]
        · rw [getD_set_ne _ i t _ (by omega), getD_set_ne _ i t _ (by omega),
            getD_set_ne _ i (t - 3) _ (by omega), getD_set_ne _ i (t - 3) _ (by omega),
            getD_set_ne _ i (t - 8) _ (by omega), getD_set_ne _ i (t - 8) _ (by omega),
            getD_set_ne _ i (t - 14) _ (by omega), getD_set_ne _ i (t - 14) _ (by omega),
            getD_set_ne _ i (t - 16) _ (by omega), getD_set_ne _ i (t - 16) _ (by omega)]
          exact hr t ht16 (by omega)
      · intro t hti
        by_cases hte : t = i
        · subst hte
          rw [getD_set_eq _ t _ (by simp only [List.length_set]; omega)]
          exact spec_rotl_lt _ _
        · rw [getD_set_ne _ i t _ (by omega), getD_set_ne _ i t _ (by omega)]
          exact hlt t (by omega))
    64 16 m16 rfl (by omega)
    ⟨le_refl _, hm, h16, fun t h1 h2 => absurd h2 (by omega), fun t ht => by
      rw [h16 t ht]; exact spec_word_lt block hbytes t⟩
  exact ⟨m, h, hl, hw, hr⟩

theorem round_eq_spec (f : Vars → Nat) (kq : Nat) (m : List Nat) (hm : m.length = 80)
    (i : Nat) (hi : i < 80) (v : Vars) (ha : v.a < 2 ^ 32) (hb : v.b < 2 ^ 32)
    (hf : f v = spec_f i v.b v.c v.d) (hk : kq = spec_k i) :
    sha1_round f kq m i v = some (spec_round m v i) := by
  unfold sha1_round spec_round
  rw [loadAt_getD m i (by omega)]
  simp only [Option.bind_eq_bind, Option.some_bind]
  rw [rotl_5 _ ha, rotl_30 _ hb, hf, hk]

/-- A round loop of `sha1_transform` runs the rounds of the specification. -/
theorem rounds_spec (f : Vars → Nat) (kq : Nat) (m : List Nat) (hm : m.length = 80)
    (hi : Nat) (hhi : hi ≤ 80) :
    ∀ (n lo : Nat) (v : Vars), hi - lo = n → lo ≤ hi → v.a < 2 ^ 32 → v.b < 2 ^ 32 →
      (∀ i (u : Vars), lo ≤ i → i < hi → u.b < 2 ^ 32 → f u = spec_f i u.b u.c u.d) →
      (∀ i, lo ≤ i → i < hi → kq = spec_k i) →
      forLoop lo hi (sha1_round f kq m) v =
          some ((List.range' lo (hi - lo)).foldl (spec_round m) v) ∧
        ((List.range' lo (hi - lo)).foldl (spec_round m) v).a < 2 ^ 32 ∧
        ((List.range' lo (hi - lo)).foldl (spec_round m) v).b < 2 ^ 32 := by
  intro n
  induction n with
  | zero =>
    intro lo v hn hle ha hb _ _
    have e : hi - lo = 0 := hn
    rw [forLoop_done _ _ _ _ (by omega), e]
    exact ⟨rfl, ha, hb⟩
  | succ n ih =>
    intro lo v hn hle ha hb hf hk
    have hlt : lo < hi := by omega
    have e : hi - lo = (hi - (lo + 1)) + 1 := by omega
    have hr := round_eq_spec f kq m hm lo (by omega) v ha hb (hf lo v (le_refl _) hlt hb)
      (hk lo (le_refl _) hlt)
    obtain ⟨h1, h2, h3⟩ := ih (lo + 1) (spec_round m v lo) (by omega) (by omega)
      (Nat.mod_lt _ (by norm_num)) ha
      (fun i u h1 h2 h3 => hf i u (by omega) h2 h3) (fun i h1 h2 => hk i (by omega) h2)
    rw [forLoop_step _ _ _ _ hlt, hr, Option.some_bind, e, List.range'_succ, List.foldl_cons]
    exact ⟨h1, h2, h3⟩

theorem range_80_split :
    List.range 80 = List.range' 0 (20 - 0) ++ (List.range' 20 (40 - 20) ++
      (List.range' 40 (60 - 40) ++ List.range' 60 (80 - 60))) := by
  have e1 := List.range'_append_1 40 20 20
  have e2 := List.range'_append_1 20 20 40
  have e3 := List.range'_append_1 0 20 60
  rw [List.range_eq_range']
  simp only [Nat.reduceAdd, Nat.reduceSub] at e1 e2 e3 ⊢
  rw [e1, e2, e3]

theorem spec_rounds_split (m : List Nat) (st : Words5) :
    spec_rounds m st =
      (List.range' 60 (80 - 60)).foldl (spec_round m)
        ((List.range' 40 (60 - 40)).foldl (spec_round m)
          ((List.range' 20 (40 - 20)).foldl (spec_round m)
            ((List.range' 0 (20 - 0)).foldl (spec_round m)
              { a := st.s0, b := st.s1, c := st.s2, d := st.s3, e := st.s4 }))) := by
  unfold spec_rounds
  rw [range_80_split, List.foldl_append, List.foldl_append, List.foldl_append]

theorem transformState_of_parts (k : Words4) (st : Words5) (block : List Nat)
    (jm : Nat × List Nat) (m : List Nat) (v1 v2 v3 v4 : Vars)
    (hp : sha1_transform_pack block (List.replicate 80 0) = some jm)
    (he : sha1_transform_expand jm.2 = some m)
    (r1 : forLoop 0 20 (sha1_round f_ch k.k0 m)
      { a := st.s0, b := st.s1, c := st.s2, d := st.s3, e := st.s4 } = some v1)
    (r2 : forLoop 20 40 (sha1_round f_parity k.k1 m) v1 = some v2)
    (r3 : forLoop 40 60 (sha1_round f_maj k.k2 m) v2 = some v3)
    (r4 : forLoop 60 80 (sha1_round f_parity k.k3 m) v3 = some v4) :
    transformState k st block = some (spec_add st v4) := by
  unfold transformState sha1_transform
  simp only [hp, he, r1, r2, r3, r4, Option.bind_eq_bind, Option.some_bind, Option.map_some']
  rfl

/-- The block transform of the code computes the transform of the specification. -/
theorem transform_spec (k : Words4) (hk : k = initK) (st : Words5) (hs : st.IsWord32)
    (block : List Nat) (hb : block.length = 64) (hbytes : ∀ b ∈ block, b < 256) :
    ∃ jm m, sha1_transform_pack block (List.replicate 80 0) = some jm ∧
      sha1_transform_expand jm.2 = some m ∧ m.length = 80 ∧
      (∀ t, t < 16 → m.getD t 0 = spec_word block t) ∧
      (∀ t, 16 ≤ t → t < 80 →
        m.getD t 0 = spec_rotl (m.getD (t - 3) 0 ^^^ m.getD (t - 8) 0 ^^^ m.getD (t - 14) 0 ^^^
          m.getD (t - 16) 0) 1) ∧
      transformState k st block = some (spec_add st (spec_rounds m st)) := by
  have hp := pack_spec block (List.replicate 80 0) (by omega) (by simp)
  have h16 : ∀ t, t < 16 →
      ((List.range 16).map (packedWord block) ++ (List.replicate 80 0).drop 16).getD t 0
        = spec_word block t := by
    intro t ht
    rw [List.getD_append _ _ _ _ (by simp; exact ht), List.getD_eq_getElem _ _ (by simp; exact ht),
      List.getElem_map, List.getElem_range, packedWord_eq_spec block hbytes t]
  obtain ⟨m, he, hl, hw, hr⟩ := expand_spec block _ hbytes (by simp) h16
  refine ⟨_, m, hp, he, hl, hw, hr, ?_⟩
  obtain ⟨h0, h1, -, -, -⟩ := hs
  subst hk
  obtain ⟨r1, a1, b1⟩ := rounds_spec f_ch initK.k0 m hl 20 (by omega) 20 0
    { a := st.s0, b := st.s1, c := st.s2, d := st.s3, e := st.s4 } rfl (by omega) h0 h1
    (fun i u _ h2 h3 => by
      rw [f_ch_eq_choice u h3]; unfold spec_f; rw [if_pos h2])
    (fun i _ h2 => by unfold spec_k; rw [if_pos h2]; rfl)
  obtain ⟨r2, a2, b2⟩ := rounds_spec f_parity initK.k1 m hl 40 (by omega) 20 20 _ rfl
    (by omega) a1 b1
    (fun i u h1 h2 _ => by
      unfold spec_f; rw [if_neg (by omega), if_pos h2]; rfl)
    (fun i h1 h2 => by unfold spec_k; rw [if_neg (by omega), if_pos h2]; rfl)
  obtain ⟨r3, a3, b3⟩ := rounds_spec f_maj initK.k2 m hl 60 (by omega) 20 40 _ rfl
    (by omega) a2 b2
    (fun i u h1 h2 _ => by
      rw [f_maj_eq_majority u]; unfold spec_f
      rw [if_neg (by omega), if_neg (by omega), if_pos h2])
    (fun i h1 h2 => by
      unfold spec_k; rw [if_neg (by omega), if_neg (by omega), if_pos h2]; rfl)
  obtain ⟨r4, -, -⟩ := rounds_spec f_parity initK.k3 m hl 80 (by omega) 20 60 _ rfl
    (by omega) a3 b3
    (fun i u h1 h2 _ => by
      unfold spec_f; rw [if_neg (by omega), if_neg (by omega), if_neg (by omega)]; rfl)
    (fun i h1 h2 => by
      unfold spec_k; rw [if_neg (by omega), if_neg (by omega), if_neg (by omega)]; rfl)
  rw [spec_rounds_split]
  exact transformState_of_parts initK st block _ m _ _ _ _ hp he r1 r2 r3 r4

/-! ## The claims -/

/-- C1: for every byte sequence `x` shorter than `2^61` bytes, the call sequence
`sha1_init; sha1_update(x); sha1_final` returns, and the 20 bytes it writes are the
big-endian serialization of the state obtained by folding the block transform, from the
five initialization words, over the 64-byte blocks of
`x ‖ 0x80 ‖ 0x00^k ‖ BE64(8·|x|)`, where `k` is the least number of zero bytes that
makes the padded length a multiple of 64 (and the eight length bytes denote `8·|x|`). -/
theorem C1_digest_of_padded_message (c : SHA1_CTX) (hc : c.data.length = 64)
    (x hash : List Nat) (hx : x.length < 2 ^ 61) (hh : 20 ≤ hash.length) (k : Nat)
    (hk : (x.length + 1 + k + 8) % 64 = 0)
    (hmin : ∀ j, j < k → (x.length + 1 + j + 8) % 64 ≠ 0) :
    beValue (be64 (8 * x.length)) = 8 * x.length ∧
    ∃ st c', (blocks (x ++ [0x80] ++ List.replicate k 0 ++ be64 (8 * x.length))).foldlM
        (transformState initK) initState = some st ∧
      sha1_digest c x x.length hash = some (c', serialize st ++ hash.drop 20) := by
  refine ⟨be64_value _ (by norm_num at hx ⊢; omega), ?_⟩
  obtain ⟨st, c', h1, h2, -⟩ := digest_core c hc x hash hh
  rw [padZeros_least x.length k hk hmin]
  exact ⟨st, c', h1, h2⟩

/-- Instance of C1 at the message "abc" (`k = 52`). -/
theorem C1_digest_of_padded_message_witness :
    ctx0.data.length = 64 ∧ ([97, 98, 99] : List Nat).length < 2 ^ 61 ∧ 20 ≤ buf0.length ∧
    (3 + 1 + 52 + 8) % 64 = 0 ∧
    (beValue (be64 (8 * ([97, 98, 99] : List Nat).length)) = 8 * ([97, 98, 99] : List Nat).length ∧
      ∃ st c', (blocks ([97, 98, 99] ++ [0x80] ++ List.replicate 52 0 ++
          be64 (8 * ([97, 98, 99] : List Nat).length))).foldlM
          (transformState initK) initState = some st ∧
        sha1_digest ctx0 [97, 98, 99] ([97, 98, 99] : List Nat).length buf0 =
          some (c', serialize st ++ buf0.drop 20)) :=
  ⟨by decide, by decide, by decide, by decide,
    C1_digest_of_padded_message ctx0 (by decide) [97, 98, 99] buf0 (by decide) (by decide) 52
      (by decide) (by intro j hj; simp only [List.length_cons, List.length_nil]; omega)⟩

/-- C2: the three known-answer vectors of the self-test are reproduced exactly, from
any initial contents of the context and of the 20-byte output buffer:
`init; update(text, len); final` writes `hash1` for "abc" (3 bytes), `hash2` for the
56-byte message and `hash3` for "aaaaaaaaaa" (10 bytes), and `sha1_test` returns 1. -/
theorem C2_known_answer_vectors (c : SHA1_CTX) (hc : c.data.length = 64) (buf : List Nat)
    (hb : buf.length = 20) :
    (∃ c', sha1_digest c text1 3 buf = some (c', hash1)) ∧
    (∃ c', sha1_digest c text2 56 buf = some (c', hash2)) ∧
    (∃ c', sha1_digest c text3 10 buf = some (c', hash3)) ∧
    sha1_test c buf = some 1 := by
  have hd : buf.drop 20 = [] := List.drop_of_length_le (by omega)
  obtain ⟨c1, h1, hl1⟩ := digest_known c hc text1 3 (by decide) buf hash1 (by omega)
    foldBlocks_text1
  obtain ⟨c2, h2, -⟩ := digest_known c hc text2 56 (by decide) buf hash2 (by omega)
    foldBlocks_text2
  obtain ⟨c3, h3, -⟩ := digest_known c hc text3 10 (by decide) buf hash3 (by omega)
    foldBlocks_text3
  rw [hd, List.append_nil] at h1 h2 h3
  refine ⟨⟨c1, h1⟩, ⟨c2, h2⟩, ⟨c3, h3⟩, ?_⟩
  obtain ⟨d2, g2, gl2⟩ := digest_known c1 hl1 text2 56 (by decide) hash1 hash2 (by decide)
    foldBlocks_text2
  obtain ⟨d3, g3, -⟩ := digest_known d2 gl2 text3 10 (by decide) hash2 hash3 (by decide)
    foldBlocks_text3
  have e1 : hash1.drop 20 = [] := rfl
  have e2 : hash2.drop 20 = [] := rfl
  rw [e1, List.append_nil] at g2
  rw [e2, List.append_nil] at g3
  unfold sha1_test
  simp only [h1, g2, g3, Option.bind_eq_bind, Option.some_bind]
  rfl

/-- Instance of C2 at the zeroed context and output buffer. -/
theorem C2_known_answer_vectors_witness :
    ctx0.data.length = 64 ∧ buf0.length = 20 ∧
    ((∃ c', sha1_digest ctx0 text1 3 buf0 = some (c', hash1)) ∧
     (∃ c', sha1_digest ctx0 text2 56 buf0 = some (c', hash2)) ∧
     (∃ c', sha1_digest ctx0 text3 10 buf0 = some (c', hash3)) ∧
     sha1_test ctx0 buf0 = some 1) :=
  ⟨by decide, by decide, C2_known_answer_vectors ctx0 (by decide) buf0 (by decide)⟩

/-- C3: the digest of the empty input is `DA39A3EE 5E6B4B0D 3255BFEF 95601890
AFD80709`, both when `sha1_final` directly follows `sha1_init` and when `sha1_update`
is first called with length 0 (whatever its data argument); and a zero-length
`sha1_update` leaves every context unchanged. -/
theorem C3_empty_input (c : SHA1_CTX) (hc : c.data.length = 64) (hash : List Nat)
    (hh : 20 ≤ hash.length) (data : List Nat) :
    (∃ c', sha1_final (sha1_init c) hash = some (c', emptyDigest ++ hash.drop 20)) ∧
    (∃ c', sha1_digest c data 0 hash = some (c', emptyDigest ++ hash.drop 20)) ∧
    (∀ ctx : SHA1_CTX, sha1_update ctx data 0 = some ctx) := by
  have hz : ∀ ctx : SHA1_CTX, sha1_update ctx data 0 = some ctx := fun ctx =>
    forLoop_done _ _ _ _ (le_refl _)
  obtain ⟨c', h, -⟩ := digest_known c hc data 0 (by omega) hash emptyDigest hh
    foldBlocks_empty
  refine ⟨⟨c', ?_⟩, ⟨c', h⟩, hz⟩
  unfold sha1_digest at h
  rw [hz] at h
  exact h

/-- Instance of C3 at the zeroed context and output buffer. -/
theorem C3_empty_input_witness :
    ctx0.data.length = 64 ∧ 20 ≤ buf0.length ∧
    ((∃ c', sha1_final (sha1_init ctx0) buf0 = some (c', emptyDigest ++ buf0.drop 20)) ∧
     (∃ c', sha1_digest ctx0 text1 0 buf0 = some (c', emptyDigest ++ buf0.drop 20)) ∧
     (∀ ctx : SHA1_CTX, sha1_update ctx text1 0 = some ctx)) :=
  ⟨by decide, by decide, C3_empty_input ctx0 (by decide) buf0 (by decide) text1⟩

/-- C4: chunking invariance.  For every list of consecutive chunks (any number of
them, empty ones included), `sha1_init` followed by one `sha1_update` per chunk and
`sha1_final` returns the same result as `sha1_init; sha1_update(x); sha1_final` on
their concatenation `x`. -/
theorem C4_chunking_invariance (c : SHA1_CTX) (hc : c.data.length = 64)
    (chunks : List (List Nat)) (hash : List Nat) (hh : 20 ≤ hash.length) :
    ∃ r, (sha1_update_chunks (sha1_init c) chunks).bind (fun c1 => sha1_final c1 hash) = some r ∧
      sha1_digest c chunks.flatten chunks.flatten.length hash = some r := by
  obtain ⟨st, c', -, h2, -⟩ := digest_core c hc chunks.flatten hash hh
  refine ⟨_, ?_, h2⟩
  rw [← h2]
  unfold sha1_digest
  rw [update_chunks_eq, sha1_update_eq_foldlM _ _ _ (le_refl _), List.take_length]
  rfl

/-- Instance of C4: "abc" fed as "a", "", "bc". -/
theorem C4_chunking_invariance_witness :
    ctx0.data.length = 64 ∧ 20 ≤ buf0.length ∧
    ∃ r, (sha1_update_chunks (sha1_init ctx0) [[97], [], [98, 99]]).bind
        (fun c1 => sha1_final c1 buf0) = some r ∧
      sha1_digest ctx0 [[97], [], [98, 99]].flatten [[97], [], [98, 99]].flatten.length buf0
        = some r :=
  ⟨by decide, by decide,
    C4_chunking_invariance ctx0 (by decide) [[97], [], [98, 99]] buf0 (by decide)⟩

/-- C5: the digest is a function of the message alone.  For all contexts `c1`, `c2`
with arbitrary prior contents and all output buffers, `sha1_init; sha1_update(x);
sha1_final` writes the same 20 bytes `d`; past those 20 bytes the buffers keep what
they held, and the contexts left behind can be used again the same way. -/
theorem C5_digest_depends_on_message_only (c1 c2 : SHA1_CTX) (h1 : c1.data.length = 64)
    (h2 : c2.data.length = 64) (x out1 out2 : List Nat) (ho1 : 20 ≤ out1.length)
    (ho2 : 20 ≤ out2.length) :
    ∃ d r1 r2, d.length = 20 ∧
      sha1_digest c1 x x.length out1 = some (r1, d ++ out1.drop 20) ∧
      sha1_digest c2 x x.length out2 = some (r2, d ++ out2.drop 20) ∧
      r1.data.length = 64 ∧ r2.data.length = 64 := by
  obtain ⟨s1, r1, f1, g1, -, l1, -⟩ := digest_core c1 h1 x out1 ho1
  obtain ⟨s2, r2, f2, g2, -, l2, -⟩ := digest_core c2 h2 x out2 ho2
  have e : s2 = s1 := Option.some.inj (f2.symm.trans f1)
  rw [e] at g2
  exact ⟨serialize s1, r1, r2, serialize_length s1, g1, g2, l1, l2⟩

/-- Instance of C5: a zeroed context and one holding stale data. -/
theorem C5_digest_depends_on_message_only_witness :
    ctx0.data.length = 64 ∧
    ({ ctx0 with data := List.replicate 64 7, datalen := 9, bitlen := 5 } : SHA1_CTX).data.length
      = 64 ∧
    ∃ d r1 r2, d.length = 20 ∧
      sha1_digest ctx0 [97, 98, 99] ([97, 98, 99] : List Nat).length buf0
        = some (r1, d ++ buf0.drop 20) ∧
      sha1_digest { ctx0 with data := List.replicate 64 7, datalen := 9, bitlen := 5 }
        [97, 98, 99] ([97, 98, 99] : List Nat).length hash1 = some (r2, d ++ hash1.drop 20) ∧
      r1.data.length = 64 ∧ r2.data.length = 64 :=
  ⟨by decide, by decide,
    C5_digest_depends_on_message_only ctx0
      { ctx0 with data := List.replicate 64 7, datalen := 9, bitlen := 5 }
      (by decide) (by decide) [97, 98, 99] buf0 hash1 (by decide) (by decide)⟩

/-- C6: whenever `sha1_final` returns, it has written exactly the first 20 bytes of
the output buffer, and byte `4j+i` (`j` in 0..4, `i` in 0..3) is bits
`(31-8i)..(24-8i)` of the final state word `j`: the output is the concatenation of the
big-endian encodings of state words 0 to 4.  It does return for every context with
`BYTE data[64]` holding fewer than 64 pending bytes and every buffer of at least 20
bytes. -/
theorem C6_output_is_big_endian_state (ctx : SHA1_CTX) (hash : List Nat) :
    (∀ c' out, sha1_final ctx hash = some (c', out) →
      out.length = hash.length ∧ out.drop 20 = hash.drop 20 ∧
      out.take 20 = serialize c'.state ∧ (out.take 20).length = 20 ∧
      ∀ j i, j < 5 → i < 4 →
        out[4 * j + i]? = some (c'.state.word j / 2 ^ (24 - 8 * i) % 2 ^ 8)) ∧
    (ctx.data.length = 64 → ctx.datalen < 64 → 20 ≤ hash.length →
      ∃ c' out, sha1_final ctx hash = some (c', out)) := by
  refine ⟨?_, ?_⟩
  · intro c' out h
    have ho := final_output_of_some ctx hash c' out h
    have hh := output_some_length _ _ _ ho
    rw [output_spec _ _ hh] at ho
    have e : out = serialize c'.state ++ hash.drop 20 := (Option.some.inj ho).symm
    have hs := serialize_length c'.state
    subst e
    refine ⟨?_, ?_, ?_, ?_, ?_⟩
    · rw [List.length_append, hs, List.length_drop]; omega
    · rw [List.drop_append_of_le_length (by omega), List.drop_of_length_le (by omega)]
      rfl
    · rw [List.take_append_of_le_length (by omega), List.take_of_length_le (by omega)]
    · rw [List.take_append_of_le_length (by omega), List.take_of_length_le (by omega)]
      exact hs
    · intro j i hj hi
      exact serialize_getElem _ _ j i hj hi
  · intro hlen hp hh
    obtain ⟨c', h, -⟩ := final_total ctx hlen hp hash hh
    exact ⟨c', _, h⟩

/-- Instance of C6: finalizing the initialized zero context returns, and what it
returns is the serialized state. -/
theorem C6_output_is_big_endian_state_witness :
    (sha1_init ctx0).data.length = 64 ∧ (sha1_init ctx0).datalen < 64 ∧ 20 ≤ buf0.length ∧
    ∃ c' out, sha1_final (sha1_init ctx0) buf0 = some (c', out) ∧
      out.length = buf0.length ∧ out.take 20 = serialize c'.state :=
  have T := C6_output_is_big_endian_state (sha1_init ctx0) buf0
  have ⟨c', out, h⟩ := T.2 (by decide) (by decide) (by decide)
  ⟨by decide, by decide, by decide, c', out, h, (T.1 c' out h).1, (T.1 c' out h).2.2.1⟩

/-- C7: for every context with `p = datalen < 64` pending bytes, `sha1_final` returns and
the state it leaves is one block transform of the old state when `p ≤ 55`, on
`pending[0..p) ‖ 0x80 ‖ 0x00^(55-p) ‖ BE64(bitlen + 8p)`, and two block transforms when
`56 ≤ p ≤ 63`, on `pending[0..p) ‖ 0x80 ‖ 0x00^(63-p)` and then on
`0x00^56 ‖ BE64(bitlen + 8p)`. -/
theorem C7_final_one_or_two_transforms (ctx : SHA1_CTX) (hlen : ctx.data.length = 64)
    (hp : ctx.datalen < 64) (hash : List Nat) (hh : 20 ≤ hash.length) :
    ∃ c' out, sha1_final ctx hash = some (c', out) ∧
      (ctx.datalen ≤ 55 →
        transformState ctx.k ctx.state
          (ctx.data.take ctx.datalen ++ [0x80] ++ List.replicate (55 - ctx.datalen) 0 ++
            be64 (ctx.bitlen + 8 * ctx.datalen)) = some c'.state) ∧
      (56 ≤ ctx.datalen →
        ∃ s1, transformState ctx.k ctx.state
            (ctx.data.take ctx.datalen ++ [0x80] ++ List.replicate (63 - ctx.datalen) 0)
              = some s1 ∧
          transformState ctx.k s1
            (List.replicate 56 0 ++ be64 (ctx.bitlen + 8 * ctx.datalen)) = some c'.state) := by
  have eL : be64 ((ctx.bitlen + ctx.datalen * 8) % 2 ^ 64) = be64 (ctx.bitlen + 8 * ctx.datalen) := by
    rw [be64_mod, Nat.mul_comm]
  by_cases h56 : ctx.datalen < 56
  · obtain ⟨s, hs, hf⟩ := final_short ctx hlen h56 hash hh
    refine ⟨_, _, hf, ?_, ?_⟩
    · intro _
      rw [eL] at hs
      simpa using hs
    · intro h
      omega
  · obtain ⟨s1, s2, hs1, hs2, hf⟩ := final_long ctx hlen (by omega) hp hash hh
    refine ⟨_, _, hf, ?_, ?_⟩
    · intro h
      omega
    · intro _
      rw [eL] at hs2
      exact ⟨s1, by simpa using hs1, hs2⟩

/-- Instance of C7 at 56 pending bytes, where two transforms are applied. -/
theorem C7_final_one_or_two_transforms_witness :
    ({ sha1_init ctx0 with datalen := 56 } : SHA1_CTX).data.length = 64 ∧
    ({ sha1_init ctx0 with datalen := 56 } : SHA1_CTX).datalen < 64 ∧ 20 ≤ buf0.length ∧
    ∃ c' out, sha1_final { sha1_init ctx0 with datalen := 56 } buf0 = some (c', out) ∧
      ((56 : Nat) ≤ 55 →
        transformState initK initState
          (ctx0.data.take 56 ++ [0x80] ++ List.replicate (55 - 56) 0 ++
            be64 (0 + 8 * 56)) = some c'.state) ∧
      ((56 : Nat) ≤ 56 →
        ∃ s1, transformState initK initState
            (ctx0.data.take 56 ++ [0x80] ++ List.replicate (63 - 56) 0) = some s1 ∧
          transformState initK s1 (List.replicate 56 0 ++ be64 (0 + 8 * 56))
            = some c'.state) :=
  ⟨by decide, by decide, by decide,
    C7_final_one_or_two_transforms { sha1_init ctx0 with datalen := 56 } (by decide)
      (by decide) buf0 (by decide)⟩

/-- C8: for every message `x` of exactly 64 bytes, `sha1_init; sha1_update(x);
sha1_final` returns the big-endian serialization of `transform(transform(H0, x), P)`:
one transform on `x` (inside update) and one on the padding block `P` (inside final),
`P` being `0x80`, 61 zero bytes, `0x02`, `0x00`, whose length field is 512. -/
theorem C8_one_full_block (c : SHA1_CTX) (hc : c.data.length = 64) (x : List Nat)
    (hx : x.length = 64) (hash : List Nat) (hh : 20 ≤ hash.length) :
    ∃ s1 s2 c', transformState initK initState x = some s1 ∧
      transformState initK s1 ([0x80] ++ List.replicate 61 0 ++ [0x02, 0x00]) = some s2 ∧
      sha1_digest c x 64 hash = some (c', serialize s2 ++ hash.drop 20) := by
  obtain ⟨st, c', h1, h2, -⟩ := digest_core c hc x hash hh
  unfold foldBlocks at h1
  have hb : blocks x = [x] := by
    have := blocks_block_append x [] hx
    rw [List.append_nil, blocks_short [] (by simp)] at this
    exact this
  rw [blocks_padded, hb, hx] at h1
  simp only [Nat.reduceMod, Nat.reduceDiv, Nat.reduceLT, if_true, Nat.reduceMul,
    List.singleton_append, List.foldlM_cons, List.foldlM_nil, Option.bind_eq_bind] at h1
  rw [List.drop_of_length_le (by omega)] at h1
  rw [hx] at h2
  obtain ⟨s1, hs1⟩ := transformState_total initK initState x (by omega)
  obtain ⟨s2, hs2⟩ := transformState_total initK s1
    ([0x80] ++ List.replicate 61 0 ++ [0x02, 0x00]) (by simp)
  have hP : ([] : List Nat) ++ 128 :: List.replicate (55 - 0) 0 ++ be64 512 =
      [0x80] ++ List.replicate 61 0 ++ [0x02, 0x00] := by decide
  rw [hs1, Option.some_bind, hP, hs2, Option.some_bind] at h1
  have e : s2 = st := Option.some.inj h1
  exact ⟨s1, s2, c', hs1, hs2, by rw [e]; exact h2⟩

/-- Instance of C8 at the message of 64 zero bytes. -/
theorem C8_one_full_block_witness :
    ctx0.data.length = 64 ∧ (List.replicate 64 0).length = 64 ∧ 20 ≤ buf0.length ∧
    ∃ s1 s2 c', transformState initK initState (List.replicate 64 0) = some s1 ∧
      transformState initK s1 ([0x80] ++ List.replicate 61 0 ++ [0x02, 0x00]) = some s2 ∧
      sha1_digest ctx0 (List.replicate 64 0) 64 buf0 = some (c', serialize s2 ++ buf0.drop 20) :=
  ⟨by decide, List.length_replicate 64 0, by decide,
    C8_one_full_block ctx0 (by decide) (List.replicate 64 0) (List.length_replicate 64 0) buf0
      (by decide)⟩

/-- C9: `datalen < 64` is an invariant of the context between calls: `sha1_init`
establishes it (`datalen = 0`) from any prior contents, `sha1_update` returns and
preserves it for every data sequence of every length, and `sha1_final` returns and
leaves `datalen` unchanged. -/
theorem C9_datalen_invariant (c0 c : SHA1_CTX) (hc : c.data.length = 64)
    (hp : c.datalen < 64) (data : List Nat) (len : Nat) (hl : len ≤ data.length)
    (hash : List Nat) (hh : 20 ≤ hash.length) :
    ((sha1_init c0).datalen = 0 ∧ (sha1_init c0).datalen < 64 ∧
      (sha1_init c0).data = c0.data) ∧
    (∃ c', sha1_update c data len = some c' ∧ c'.datalen < 64 ∧ c'.data.length = 64) ∧
    (∃ c' out, sha1_final c hash = some (c', out) ∧ c'.datalen = c.datalen ∧
      c'.datalen < 64 ∧ c'.data.length = 64) := by
  refine ⟨⟨rfl, Nat.zero_lt_succ 63, rfl⟩, ?_, ?_⟩
  · obtain ⟨c', h1, -, -, h4, -, -, h7, -⟩ := absorb_spec (data.take len) c hc hp
    refine ⟨c', ?_, ?_, h7⟩
    · rw [sha1_update_eq_foldlM _ _ _ hl]
      exact h1
    · rw [h4]
      exact Nat.mod_lt _ (by norm_num)
  · obtain ⟨c', h, h1, h2, -⟩ := final_total c hc hp hash hh
    exact ⟨c', _, h, h1, by rw [h1]; exact hp, h2⟩

/-- Instance of C9: "abc" fed to the initialized zero context. -/
theorem C9_datalen_invariant_witness :
    (sha1_init ctx0).data.length = 64 ∧ (sha1_init ctx0).datalen < 64 ∧
    3 ≤ text1.length ∧ 20 ≤ buf0.length ∧
    (((sha1_init ctx0).datalen = 0 ∧ (sha1_init ctx0).datalen < 64 ∧
      (sha1_init ctx0).data = ctx0.data) ∧
    (∃ c', sha1_update (sha1_init ctx0) text1 3 = some c' ∧ c'.datalen < 64 ∧
      c'.data.length = 64) ∧
    (∃ c' out, sha1_final (sha1_init ctx0) buf0 = some (c', out) ∧
      c'.datalen = (sha1_init ctx0).datalen ∧ c'.datalen < 64 ∧ c'.data.length = 64)) :=
  ⟨by decide, by decide, by decide, by decide,
    C9_datalen_invariant ctx0 (sha1_init ctx0) (by decide) (by decide) text1 3 (by decide)
      buf0 (by decide)⟩

/-- C10: for every context with `p = datalen < 64` (and a 64-bit `bitlen`) and every byte
sequence `x` of `n` bytes, `sha1_update` returns a context whose `datalen` is
`(p + n) mod 64`, whose `bitlen` is `bitlen + 512·⌊(p + n)/64⌋` modulo `2^64`, and whose
`data[0..datalen)` holds the last `(p + n) mod 64` bytes of `pending[0..p) ‖ x`; so
`bitlen` counts the bits of completed blocks only. -/
theorem C10_update_accounting (c : SHA1_CTX) (hc : c.data.length = 64) (hp : c.datalen < 64)
    (hb : c.bitlen < 2 ^ 64) (x : List Nat) :
    ∃ c', sha1_update c x x.length = some c' ∧
      c'.datalen = (c.datalen + x.length) % 64 ∧
      c'.bitlen = (c.bitlen + 512 * ((c.datalen + x.length) / 64)) % 2 ^ 64 ∧
      c'.data.take c'.datalen =
        (c.data.take c.datalen ++ x).drop
          ((c.data.take c.datalen ++ x).length - (c.datalen + x.length) % 64) := by
  obtain ⟨c', h1, -, -, h4, h5, h6, -, h8⟩ := absorb_spec x c hc hp
  refine ⟨c', ?_, h4, ?_, ?_⟩
  · rw [sha1_update_eq_foldlM _ _ _ (le_refl _), List.take_length]
    exact h1
  · rw [← h5]
    exact (Nat.mod_eq_of_lt (h6 hb)).symm
  · rw [h8]
    congr 1
    rw [List.length_append, List.length_take, hc]
    omega

/-- Instance of C10: 70 bytes fed to a context holding 60 pending bytes. -/
theorem C10_update_accounting_witness :
    ({ sha1_init ctx0 with datalen := 60 } : SHA1_CTX).data.length = 64 ∧
    ({ sha1_init ctx0 with datalen := 60 } : SHA1_CTX).datalen < 64 ∧
    ({ sha1_init ctx0 with datalen := 60 } : SHA1_CTX).bitlen < 2 ^ 64 ∧
    ∃ c', sha1_update { sha1_init ctx0 with datalen := 60 } (List.replicate 70 1)
        (List.replicate 70 1).length = some c' ∧
      c'.datalen = (60 + (List.replicate 70 1).length) % 64 ∧
      c'.bitlen = (0 + 512 * ((60 + (List.replicate 70 1).length) / 64)) % 2 ^ 64 ∧
      c'.data.take c'.datalen =
        (ctx0.data.take 60 ++ List.replicate 70 1).drop
          ((ctx0.data.take 60 ++ List.replicate 70 1).length -
            (60 + (List.replicate 70 1).length) % 64) :=
  ⟨by decide, by decide, by decide,
    C10_update_accounting { sha1_init ctx0 with datalen := 60 } (by decide) (by decide)
      (by decide) (List.replicate 70 1)⟩

/-- C11: for every byte sequence fed through `sha1_update` in any chunking after
`sha1_init`, the eight bytes at offsets 56..63 of the last block `sha1_final` transforms
are the big-endian encoding (most significant byte at offset 56) of `8·|x| mod 2^64`;
adding `datalen·8` to `bitlen` once at final time gives the value obtained by
accumulating 8 bits per input byte. -/
theorem C11_length_field (c : SHA1_CTX) (hc : c.data.length = 64)
    (chunks : List (List Nat)) (hash : List Nat) (hh : 20 ≤ hash.length) :
    ∃ c1 c' out s, sha1_update_chunks (sha1_init c) chunks = some c1 ∧
      sha1_final c1 hash = some (c', out) ∧
      transformState c'.k s c'.data = some c'.state ∧
      c'.data.length = 64 ∧
      c'.data.drop 56 = be64 (8 * chunks.flatten.length % 2 ^ 64) ∧
      beValue (c'.data.drop 56) = 8 * chunks.flatten.length % 2 ^ 64 ∧
      (c1.bitlen + c1.datalen * 8) % 2 ^ 64 = countBits chunks.flatten ∧
      c'.bitlen = countBits chunks.flatten := by
  obtain ⟨c1, h1, -, -, h4, h5, -, h7, -⟩ := absorb_spec chunks.flatten (sha1_init c) hc (by
    show 0 < 64
    omega)
  have e0 : (sha1_init c).datalen = 0 := rfl
  have e1 : (sha1_init c).bitlen = 0 := rfl
  simp only [e0, e1, Nat.zero_add] at h4 h5
  have hL : (c1.bitlen + c1.datalen * 8) % 2 ^ 64 = 8 * chunks.flatten.length % 2 ^ 64 := by
    rw [Nat.add_mod, h5, ← Nat.add_mod, h4]
    congr 1
    omega
  obtain ⟨c', out, s, hf, hs, hl, hd, hb⟩ := final_length_field c1 h7 (by rw [h4]; omega)
    hash hh
  have hk : c'.k = c1.k := final_k c1 c' hash out hf
  rw [hL] at hd hb
  refine ⟨c1, c', out, s, ?_, hf, by rw [hk]; exact hs, hl, hd, ?_, ?_, ?_⟩
  · rw [update_chunks_eq]; exact h1
  · rw [hd]; exact be64_value _ (Nat.mod_lt _ (by norm_num))
  · rw [hL, countBits_eq]
  · rw [hb, countBits_eq]

/-- Instance of C11: "abc" fed as "a", "", "bc". -/
theorem C11_length_field_witness :
    ctx0.data.length = 64 ∧ 20 ≤ buf0.length ∧
    ∃ c1 c' out s, sha1_update_chunks (sha1_init ctx0) [[97], [], [98, 99]] = some c1 ∧
      sha1_final c1 buf0 = some (c', out) ∧
      transformState c'.k s c'.data = some c'.state ∧
      c'.data.length = 64 ∧
      c'.data.drop 56 = be64 (8 * [[97], [], [98, 99]].flatten.length % 2 ^ 64) ∧
      beValue (c'.data.drop 56) = 8 * [[97], [], [98, 99]].flatten.length % 2 ^ 64 ∧
      (c1.bitlen + c1.datalen * 8) % 2 ^ 64 = countBits [[97], [], [98, 99]].flatten ∧
      c'.bitlen = countBits [[97], [], [98, 99]].flatten :=
  ⟨by decide, by decide,
    C11_length_field ctx0 (by decide) [[97], [], [98, 99]] buf0 (by decide)⟩

/-- C12: for every state of five 32-bit words, every block of 64 bytes (bytes of `0x80`
and above included) and the round constants `sha1_init` sets, `sha1_transform` computes
the specified algorithm: `m[0..15]` are the bytes of the block packed big-endian,
`m[i] = rotl(m[i-3] XOR m[i-8] XOR m[i-14] XOR m[i-16], 1)` for `16 ≤ i < 80`, the
variables go through 80 rounds `t = rotl(a,5) + f + e + k + m[i]`, `e=d`, `d=c`,
`c=rotl(b,30)`, `b=a`, `a=t` with `f` and `k` per quadrant (choice/k0, parity/k1,
majority/k2, parity/k3), and the new state is `state[j] + (a,b,c,d,e)[j]` modulo
`2^32`. -/
theorem C12_transform_refines_spec (ctx : SHA1_CTX) (hk : ctx.k = initK)
    (hs : ctx.state.IsWord32) (block : List Nat) (hb : block.length = 64)
    (hbytes : ∀ b ∈ block, b < 256) :
    ∃ jm m c', sha1_transform_pack block (List.replicate 80 0) = some jm ∧
      sha1_transform_expand jm.2 = some m ∧ m.length = 80 ∧
      (∀ t, t < 16 → m.getD t 0 = spec_word block t) ∧
      (∀ t, 16 ≤ t → t < 80 →
        m.getD t 0 = spec_rotl (m.getD (t - 3) 0 ^^^ m.getD (t - 8) 0 ^^^ m.getD (t - 14) 0 ^^^
          m.getD (t - 16) 0) 1) ∧
      sha1_transform ctx block = some c' ∧
      c'.state = spec_add ctx.state (spec_rounds m ctx.state) ∧
      c'.state.IsWord32 := by
  obtain ⟨jm, m, hp, he, hl, hw, hr, ht⟩ := transform_spec ctx.k hk ctx.state hs block hb hbytes
  refine ⟨jm, m, { ctx with state := spec_add ctx.state (spec_rounds m ctx.state) }, hp, he, hl,
    hw, hr, ?_, rfl, ?_⟩
  · rw [sha1_transform_eq, ht]
    rfl
  · exact ⟨Nat.mod_lt _ (by norm_num), Nat.mod_lt _ (by norm_num), Nat.mod_lt _ (by norm_num),
      Nat.mod_lt _ (by norm_num), Nat.mod_lt _ (by norm_num)⟩

/-- Instance of C12: the initialized context and a block of 64 bytes `0x80`. -/
theorem C12_transform_refines_spec_witness :
    (sha1_init ctx0).k = initK ∧ (sha1_init ctx0).state.IsWord32 ∧
    (List.replicate 64 0x80).length = 64 ∧ (∀ b ∈ List.replicate 64 0x80, b < 256) ∧
    ∃ jm m c', sha1_transform_pack (List.replicate 64 0x80) (List.replicate 80 0) = some jm ∧
      sha1_transform_expand jm.2 = some m ∧ m.length = 80 ∧
      (∀ t, t < 16 → m.getD t 0 = spec_word (List.replicate 64 0x80) t) ∧
      (∀ t, 16 ≤ t → t < 80 →
        m.getD t 0 = spec_rotl (m.getD (t - 3) 0 ^^^ m.getD (t - 8) 0 ^^^ m.getD (t - 14) 0 ^^^
          m.getD (t - 16) 0) 1) ∧
      sha1_transform (sha1_init ctx0) (List.replicate 64 0x80) = some c' ∧
      c'.state = spec_add (sha1_init ctx0).state (spec_rounds m (sha1_init ctx0).state) ∧
      c'.state.IsWord32 :=
  have hw : (sha1_init ctx0).state.IsWord32 := by
    unfold Words5.IsWord32 sha1_init; norm_num
  have hbytes : ∀ b ∈ List.replicate 64 0x80, b < 256 := fun b hb => by
    rw [List.eq_of_mem_replicate hb]; norm_num
  ⟨rfl, hw, List.length_replicate 64 0x80, hbytes,
    C12_transform_refines_spec (sha1_init ctx0) rfl hw (List.replicate 64 0x80)
      (List.length_replicate 64 0x80) hbytes⟩

/-- C13: for all 32-bit words `b`, `c`, `d`, the mixing value of rounds 0-19,
`(b & c) ^ (~b & d)`, is the choice function `(b AND c) OR (NOT b AND d)`, and the mixing
value of rounds 40-59, `(b & c) ^ (b & d) ^ (c & d)`, is the majority function
`(b AND c) OR (b AND d) OR (c AND d)`. -/
theorem C13_mixing_functions (a b c d e : Nat) (hb : b < 2 ^ 32) (hc : c < 2 ^ 32)
    (hd : d < 2 ^ 32) :
    f_ch { a := a, b := b, c := c, d := d, e := e } = spec_choice b c d ∧
    f_maj { a := a, b := b, c := c, d := d, e := e } = spec_majority b c d ∧
    spec_choice b c d < 2 ^ 32 ∧ spec_majority b c d < 2 ^ 32 :=
  ⟨f_ch_eq_choice _ hb, f_maj_eq_majority _,
    Nat.or_lt_two_pow (Nat.and_lt_two_pow _ hc) (Nat.and_lt_two_pow _ hd),
    Nat.or_lt_two_pow (Nat.or_lt_two_pow (Nat.and_lt_two_pow _ hc) (Nat.and_lt_two_pow _ hd))
      (Nat.and_lt_two_pow _ hd)⟩

/-- Instance of C13 at three words with high bits set. -/
theorem C13_mixing_functions_witness :
    (0xF0F0F0F0 : Nat) < 2 ^ 32 ∧ (0xCCCCCCCC : Nat) < 2 ^ 32 ∧ (0xAAAAAAAA : Nat) < 2 ^ 32 ∧
    (f_ch { a := 1, b := 0xF0F0F0F0, c := 0xCCCCCCCC, d := 0xAAAAAAAA, e := 2 } =
        spec_choice 0xF0F0F0F0 0xCCCCCCCC 0xAAAAAAAA ∧
      f_maj { a := 1, b := 0xF0F0F0F0, c := 0xCCCCCCCC, d := 0xAAAAAAAA, e := 2 } =
        spec_majority 0xF0F0F0F0 0xCCCCCCCC 0xAAAAAAAA ∧
      spec_choice 0xF0F0F0F0 0xCCCCCCCC 0xAAAAAAAA < 2 ^ 32 ∧
      spec_majority 0xF0F0F0F0 0xCCCCCCCC 0xAAAAAAAA < 2 ^ 32) :=
  ⟨by norm_num, by norm_num, by norm_num,
    C13_mixing_functions 1 0xF0F0F0F0 0xCCCCCCCC 0xAAAAAAAA 2 (by norm_num) (by norm_num)
      (by norm_num)⟩

/-- C14: `sha1_transform` modifies only the five state words.  For every context and
every block of 64 bytes (the context's own buffer included) it returns a context whose
`data`, `datalen`, `bitlen` and `k` are unchanged, and the state it leaves is the same
for any other context that agrees on `state` and `k`. -/
theorem C14_transform_frame (ctx other : SHA1_CTX) (block : List Nat)
    (hb : block.length = 64) (hs : other.state = ctx.state) (hk : other.k = ctx.k) :
    ∃ c' o', sha1_transform ctx block = some c' ∧
      c'.data = ctx.data ∧ c'.datalen = ctx.datalen ∧ c'.bitlen = ctx.bitlen ∧ c'.k = ctx.k ∧
      sha1_transform other block = some o' ∧ o'.state = c'.state := by
  obtain ⟨s, h⟩ := transformState_total ctx.k ctx.state block (by omega)
  refine ⟨{ ctx with state := s }, { other with state := s }, ?_, rfl, rfl, rfl, rfl, ?_, rfl⟩
  · rw [sha1_transform_eq, h]; rfl
  · rw [sha1_transform_eq, hs, hk, h]; rfl

/-- Instance of C14: the block is the context's own buffer, and the other context
differs in buffer, length and bit count. -/
theorem C14_transform_frame_witness :
    (sha1_init ctx0).data.length = 64 ∧
    ({ sha1_init ctx0 with data := [], datalen := 3, bitlen := 9 } : SHA1_CTX).state
      = (sha1_init ctx0).state ∧
    ({ sha1_init ctx0 with data := [], datalen := 3, bitlen := 9 } : SHA1_CTX).k
      = (sha1_init ctx0).k ∧
    ∃ c' o', sha1_transform (sha1_init ctx0) (sha1_init ctx0).data = some c' ∧
      c'.data = (sha1_init ctx0).data ∧ c'.datalen = (sha1_init ctx0).datalen ∧
      c'.bitlen = (sha1_init ctx0).bitlen ∧ c'.k = (sha1_init ctx0).k ∧
      sha1_transform { sha1_init ctx0 with data := [], datalen := 3, bitlen := 9 }
        (sha1_init ctx0).data = some o' ∧ o'.state = c'.state :=
  ⟨by decide, rfl, rfl,
    C14_transform_frame (sha1_init ctx0)
      { sha1_init ctx0 with data := [], datalen := 3, bitlen := 9 }
      (sha1_init ctx0).data (by decide) rfl rfl⟩

/-- C15: in every context reached from `sha1_init` by any sequence of `sha1_update` and
`sha1_final` calls, the round constants are
`k = (0x5A827999, 0x6ED9EBA1, 0x8F1BBCDC, 0xCA62C1D6)`: each single call leaves `k` as it
found it, and `sha1_init` writes these four values. -/
theorem C15_round_constants_fixed (c : SHA1_CTX) (calls : List Call) (c' : SHA1_CTX)
    (h : runCalls (sha1_init c) calls = some c') :
    c'.k = { k0 := 0x5A827999, k1 := 0x6ED9EBA1, k2 := 0x8F1BBCDC, k3 := 0xCA62C1D6 } ∧
    ∀ (ctx r : SHA1_CTX) (call : Call), runCall ctx call = some r → r.k = ctx.k :=
  ⟨runCalls_k calls (sha1_init c) c' h, fun ctx r call hr => runCall_k ctx r call hr⟩

/-- Instance of C15: the context left by `update("abc")` followed by `final`. -/
theorem C15_round_constants_fixed_witness :
    ∃ c', runCalls (sha1_init ctx0) [Call.update text1 3, Call.final buf0] = some c' ∧
      c'.k = { k0 := 0x5A827999, k1 := 0x6ED9EBA1, k2 := 0x8F1BBCDC, k3 := 0xCA62C1D6 } := by
  obtain ⟨c1, h1, hp1, hd1⟩ := update_total (sha1_init ctx0) (by decide) (by decide) text1 3
    (by decide)
  obtain ⟨c2, h2, -⟩ := final_total c1 hd1 hp1 buf0 (by decide)
  have hrun : runCalls (sha1_init ctx0) [Call.update text1 3, Call.final buf0] = some c2 := by
    unfold runCalls
    simp only [List.foldlM_cons, List.foldlM_nil, runCall, h1, h2, Option.bind_eq_bind,
      Option.some_bind, Option.map_some']
    rfl
  exact ⟨c2, hrun, (C15_round_constants_fixed ctx0 _ c2 hrun).1⟩

/-- C16: under the precondition `datalen < 64`, with `BYTE data[64]`, an input of at
least `len` bytes, a 20-byte output buffer and a 64-byte block, no array access of
`sha1_update`, `sha1_final` or `sha1_transform` is out of bounds: each of them returns a
result (an access outside an array would make it return none), the arrays keep their
sizes, and the schedule loop runs its body for `16 ≤ i < 80` only, so `m[i-16]` is never
read with `i < 16`. -/
theorem C16_accesses_in_bounds (ctx : SHA1_CTX) (hlen : ctx.data.length = 64)
    (hp : ctx.datalen < 64) (data : List Nat) (len : Nat) (hl : len ≤ data.length)
    (hash : List Nat) (hh : hash.length = 20) (block : List Nat) (hb : block.length = 64) :
    (∃ c', sha1_update ctx data len = some c' ∧ c'.data.length = 64 ∧ c'.datalen < 64) ∧
    (∃ c' out, sha1_final ctx hash = some (c', out) ∧ c'.data.length = 64 ∧
      out.length = 20) ∧
    (∃ c', sha1_transform ctx block = some c') ∧
    (∃ jm m, sha1_transform_pack block (List.replicate 80 0) = some jm ∧ jm.2.length = 80 ∧
      sha1_transform_expand jm.2 = some m ∧ m.length = 80) ∧
    (∀ m : List Nat, sha1_transform_expand m =
      forLoop 16 80 (fun i m =>
        if 16 ≤ i ∧ i < 80 then do
          let x3 ← loadAt m (i - 3)
          let x8 ← loadAt m (i - 8)
          let x14 ← loadAt m (i - 14)
          let x16 ← loadAt m (i - 16)
          let m ← storeAt m i (x3 ^^^ x8 ^^^ x14 ^^^ x16)
          let mi ← loadAt m i
          storeAt m i (((mi <<< 1) % 2 ^ 32) ||| (mi >>> 31))
        else none) m) := by
  refine ⟨?_, ?_, sha1_transform_total ctx block (by omega), ?_, ?_⟩
  · obtain ⟨c', h, h1, h2⟩ := update_total ctx hlen hp data len hl
    exact ⟨c', h, h2, h1⟩
  · obtain ⟨c', h, -, h2, -⟩ := final_total ctx hlen hp hash (by omega)
    refine ⟨c', _, h, h2, ?_⟩
    rw [List.length_append, serialize_length, List.length_drop]
    omega
  · obtain ⟨jm, h1, hl1⟩ := pack_total block (List.replicate 80 0) (by omega) (by simp)
    obtain ⟨m, h2, hl2⟩ := expand_total jm.2 hl1
    exact ⟨jm, m, h1, hl1, h2, hl2⟩
  · intro m
    exact forLoop_guard _ 80 64 16 16 m rfl (le_refl _)

/-- Instance of C16 at a context holding 63 pending bytes. -/
theorem C16_accesses_in_bounds_witness :
    ({ sha1_init ctx0 with datalen := 63 } : SHA1_CTX).data.length = 64 ∧
    ({ sha1_init ctx0 with datalen := 63 } : SHA1_CTX).datalen < 64 ∧
    3 ≤ text1.length ∧ buf0.length = 20 ∧ (List.replicate 64 255).length = 64 ∧
    (∃ c', sha1_update { sha1_init ctx0 with datalen := 63 } text1 3 = some c' ∧
      c'.data.length = 64 ∧ c'.datalen < 64) ∧
    (∃ c' out, sha1_final { sha1_init ctx0 with datalen := 63 } buf0 = some (c', out) ∧
      c'.data.length = 64 ∧ out.length = 20) ∧
    (∃ c', sha1_transform { sha1_init ctx0 with datalen := 63 } (List.replicate 64 255)
      = some c') :=
  have T := C16_accesses_in_bounds { sha1_init ctx0 with datalen := 63 } (by decide)
    (by decide) text1 3 (by decide) buf0 (by decide) (List.replicate 64 255)
    (List.length_replicate 64 255)
  ⟨by decide, by decide, by decide, by decide, List.length_replicate 64 255, T.1, T.2.1, T.2.2.1⟩

/-- C17: output extraction and input packing are inverse.  For every state `s` of five
32-bit words, the 20 bytes the output loop of `sha1_final` writes for `s`, packed four at
a time as `(d[4j] << 24) + (d[4j+1] << 16) + (d[4j+2] << 8) + d[4j+3]` (what the first
loop of `sha1_transform` stores in `m[j]`), give back the words of `s`; so two different
states never produce the same digest bytes. -/
theorem C17_extract_pack_inverse (s : Words5) (hs : s.IsWord32) (hash : List Nat)
    (hh : 20 ≤ hash.length) (rest m0 : List Nat) (hr : rest.length = 44)
    (hm : m0.length = 80) :
    ∃ out, sha1_final_output s hash = some out ∧
      (∀ j, j < 5 → packedWord out j = s.word j) ∧
      (∃ jm, sha1_transform_pack (out.take 20 ++ rest) m0 = some jm ∧
        jm.2.take 5 = [s.s0, s.s1, s.s2, s.s3, s.s4]) ∧
      (∀ (s2 : Words5) (hash2 out2 : List Nat), s2.IsWord32 →
        sha1_final_output s2 hash2 = some out2 → out2.take 20 = out.take 20 → s2 = s) := by
  have ho := output_spec s hash hh
  have ht := output_take s hash _ ho
  refine ⟨_, ho, fun j hj => packedWord_serialize s hs _ j hj, ?_, ?_⟩
  · rw [ht, pack_spec _ m0 (by rw [List.length_append, serialize_length, hr]) (by omega)]
    refine ⟨_, rfl, ?_⟩
    have e : List.range 16 = [0, 1, 2, 3, 4] ++ [5, 6, 7, 8, 9, 10, 11, 12, 13, 14, 15] := by
      decide
    rw [e, List.map_append, List.append_assoc,
      List.take_append_of_le_length (by simp), List.take_of_length_le (by simp)]
    simp only [List.map_cons, List.map_nil]
    rw [packedWord_serialize s hs rest 0 (by omega), packedWord_serialize s hs rest 1 (by omega),
      packedWord_serialize s hs rest 2 (by omega), packedWord_serialize s hs rest 3 (by omega),
      packedWord_serialize s hs rest 4 (by omega)]
    rfl
  · intro s2 hash2 out2 hs2 h2 he
    rw [output_take s2 hash2 out2 h2, ht] at he
    exact serialize_injective s2 s hs2 hs he

/-- Instance of C17 at the initialization words. -/
theorem C17_extract_pack_inverse_witness :
    initState.IsWord32 ∧ 20 ≤ buf0.length ∧ (List.replicate 44 0).length = 44 ∧
    (List.replicate 80 0).length = 80 ∧
    ∃ out, sha1_final_output initState buf0 = some out ∧
      (∀ j, j < 5 → packedWord out j = initState.word j) ∧
      (∃ jm, sha1_transform_pack (out.take 20 ++ List.replicate 44 0) (List.replicate 80 0)
          = some jm ∧
        jm.2.take 5 = [initState.s0, initState.s1, initState.s2, initState.s3, initState.s4]) ∧
      (∀ (s2 : Words5) (hash2 out2 : List Nat), s2.IsWord32 →
        sha1_final_output s2 hash2 = some out2 → out2.take 20 = out.take 20 →
        s2 = initState) :=
  ⟨by unfold Words5.IsWord32 initState; norm_num, by decide, List.length_replicate 44 0,
    List.length_replicate 80 0,
    C17_extract_pack_inverse initState (by unfold Words5.IsWord32 initState; norm_num) buf0
      (by decide) (List.replicate 44 0) (List.replicate 80 0) (List.length_replicate 44 0)
      (List.length_replicate 80 0)⟩

end Sha1
